import Mathlib

/-!
Verification of the madpacket bit-packing core (src/madpacket.hpp).

Shallow embedding of the layout / accessor / MMIO engine of `madpacket.hpp`.

Conventions of the embedding:
* A byte buffer is a total map `Nat → Nat`; a well-formed buffer holds a value
  `< 256` at every address (`Wf`).
* C unsigned arithmetic is translated to `Nat` arithmetic, with wrap-around
  made explicit: `x & ((1 << b) - 1)` becomes `x % 2 ^ b`, `x >> s` becomes
  `x / 2 ^ s`, `x << s` (of width `w`) becomes `x * 2 ^ s % 2 ^ w`, and the
  one's complement `~m` of a `w`-bit value becomes `2 ^ w - 1 - m`.
* Signed results are represented as `Int` (the mathematical value of the
  returned `int64_t`).
-/

set_option maxHeartbeats 1000000

namespace MadPacket

/-- Well-formed byte buffer: every cell holds a byte value. -/
def Wf (buf : Nat → Nat) : Prop := ∀ i, buf i < 256

/-! ## Little-endian byte streams

`madpacket` assembles and disassembles multi-byte windows with
"little-endian byte-stream numbering": the byte at the lowest address is the
least significant byte (`detail::load_u64_le_n`, `detail::load_u128_le_n` and
the per-byte store loops in `detail::write_bits_le`).  The following four
functions are the byte-level primitives of the embedding. -/

/-- The `n` little-endian bytes of `x` (the store loop
`buf[i] = (x >> (i*8)) & 0xFF`). -/
def bytesLE : Nat → Nat → List Nat
  | 0, _ => []
  | n + 1, x => x % 256 :: bytesLE n (x / 256)

/-- Reassemble a little-endian byte list into a number
(the load loop `x |= byte[i] << (i*8)`). -/
def fromBytesLE : List Nat → Nat
  | [] => 0
  | b :: bs => b % 256 + 256 * fromBytesLE bs

/-- Read `n` consecutive bytes starting at address `p`. -/
def readBytes : Nat → (Nat → Nat) → Nat → List Nat
  | 0, _, _ => []
  | n + 1, buf, p => buf p % 256 :: readBytes n buf (p + 1)

/-- Overwrite the bytes `[p, p + l.length)` of `buf` with the list `l`. -/
def writeBytes (buf : Nat → Nat) (p : Nat) (l : List Nat) : Nat → Nat :=
  fun i => if p ≤ i ∧ i < p + l.length then l.getD (i - p) 0 % 256 else buf i

/-- `detail::load_u64_le_n<N>` / `detail::load_u128_le_n<N>`: load an `n`-byte
window at address `p` as a little-endian number. -/
def loadW (n : Nat) (buf : Nat → Nat) (p : Nat) : Nat :=
  fromBytesLE (readBytes n buf p)

/-- The byte-wise store of an `n`-byte little-endian value at address `p`
(the store loops of `detail::write_bits_le` / `mmio_store_u64_le_n`). -/
def storeW (n : Nat) (buf : Nat → Nat) (p : Nat) (x : Nat) : Nat → Nat :=
  writeBytes buf p (bytesLE n x)

@[simp] theorem length_bytesLE (n x : Nat) : (bytesLE n x).length = n := by
  induction n generalizing x with
  | zero => rfl
  | succ n ih => simp [bytesLE, ih]

@[simp] theorem length_readBytes (n : Nat) (buf : Nat → Nat) (p : Nat) :
    (readBytes n buf p).length = n := by
  induction n generalizing p with
  | zero => rfl
  | succ n ih => simp [readBytes, ih]

theorem bytesLE_mem_lt {n x b : Nat} (h : b ∈ bytesLE n x) : b < 256 := by
  induction n generalizing x with
  | zero => simp [bytesLE] at h
  | succ n ih =>
    simp only [bytesLE, List.mem_cons] at h
    rcases h with h | h
    · omega
    · exact ih h

theorem readBytes_mem_lt {n p b : Nat} {buf : Nat → Nat}
    (h : b ∈ readBytes n buf p) : b < 256 := by
  induction n generalizing p with
  | zero => simp [readBytes] at h
  | succ n ih =>
    simp only [readBytes, List.mem_cons] at h
    rcases h with h | h
    · omega
    · exact ih h

theorem fromBytesLE_lt (l : List Nat) : fromBytesLE l < 2 ^ (8 * l.length) := by
  induction l with
  | nil => simp [fromBytesLE]
  | cons b bs ih =>
    have h : b % 256 < 256 := Nat.mod_lt _ (by norm_num)
    simp only [fromBytesLE, List.length_cons]
    have : 2 ^ (8 * (bs.length + 1)) = 256 * 2 ^ (8 * bs.length) := by
      rw [Nat.mul_add, pow_add]; ring
    rw [this]
    omega

theorem pow_mul_succ_8 (n : Nat) : 2 ^ (8 * (n + 1)) = 256 * 2 ^ (8 * n) := by
  rw [show 8 * (n + 1) = 8 + 8 * n by ring, pow_add]; norm_num

theorem fromBytesLE_bytesLE (n x : Nat) :
    fromBytesLE (bytesLE n x) = x % 2 ^ (8 * n) := by
  induction n generalizing x with
  | zero => simp [bytesLE, fromBytesLE, Nat.mod_one]
  | succ n ih =>
    show fromBytesLE (x % 256 :: bytesLE n (x / 256)) = _
    simp only [fromBytesLE, ih]
    rw [Nat.mod_mod_of_dvd _ (dvd_refl 256), pow_mul_succ_8, Nat.mod_mul]

theorem bytesLE_fromBytesLE (l : List Nat) (hl : ∀ b ∈ l, b < 256) :
    bytesLE l.length (fromBytesLE l) = l := by
  induction l with
  | nil => rfl
  | cons b bs ih =>
    have hb : b < 256 := hl b (by simp)
    have hbs : ∀ x ∈ bs, x < 256 := fun x hx => hl x (by simp [hx])
    simp only [List.length_cons, bytesLE, fromBytesLE, List.cons.injEq]
    refine ⟨?_, ?_⟩
    · rw [Nat.mod_eq_of_lt hb, Nat.add_mul_mod_self_left, Nat.mod_eq_of_lt hb]
    · rw [Nat.mod_eq_of_lt hb, Nat.add_mul_div_left _ _ (by norm_num : (0:Nat) < 256),
        Nat.div_eq_of_lt hb, Nat.zero_add]
      exact ih hbs

theorem getD_bytesLE {n i : Nat} (x : Nat) (h : i < n) :
    (bytesLE n x).getD i 0 = x / 2 ^ (8 * i) % 256 := by
  induction n generalizing x i with
  | zero => omega
  | succ n ih =>
    cases i with
    | zero => simp [bytesLE]
    | succ i =>
      simp only [bytesLE, List.getD_cons_succ]
      rw [ih (x / 256) (by omega)]
      rw [Nat.div_div_eq_div_mul,
        show (256 : Nat) * 2 ^ (8 * i) = 2 ^ (8 * (i + 1)) by
          rw [show 8 * (i + 1) = 8 + 8 * i by ring, pow_add]; norm_num]

theorem readBytes_congr {n p : Nat} {buf1 buf2 : Nat → Nat}
    (h : ∀ i, i < n → buf1 (p + i) = buf2 (p + i)) :
    readBytes n buf1 p = readBytes n buf2 p := by
  induction n generalizing p with
  | zero => rfl
  | succ n ih =>
    simp only [readBytes, List.cons.injEq]
    refine ⟨?_, ?_⟩
    · have h0 := h 0 (by omega)
      simp only [Nat.add_zero] at h0
      rw [h0]
    · exact ih fun i hi => by
        have := h (i + 1) (by omega)
        simpa [show p + (i + 1) = p + 1 + i by ring] using this

theorem writeBytes_outside {buf : Nat → Nat} {p i : Nat} {l : List Nat}
    (h : i < p ∨ p + l.length ≤ i) : writeBytes buf p l i = buf i := by
  simp only [writeBytes]
  rw [if_neg]; omega

theorem writeBytes_inside {buf : Nat → Nat} {p i : Nat} {l : List Nat}
    (h1 : p ≤ i) (h2 : i < p + l.length) :
    writeBytes buf p l i = l.getD (i - p) 0 % 256 := by
  simp only [writeBytes]
  rw [if_pos ⟨h1, h2⟩]

theorem readBytes_writeBytes {n p : Nat} {buf : Nat → Nat} {l : List Nat}
    (hlen : l.length = n) (hval : ∀ b ∈ l, b < 256) :
    readBytes n (writeBytes buf p l) p = l := by
  induction n generalizing p l with
  | zero =>
    have : l = [] := List.length_eq_zero.mp hlen
    subst this; rfl
  | succ n ih =>
    match l, hlen with
    | b :: bs, hlen =>
      have hb : b < 256 := hval b (by simp)
      have hbs : bs.length = n := by simpa using hlen
      simp only [readBytes, List.cons.injEq]
      refine ⟨?_, ?_⟩
      · rw [writeBytes_inside (Nat.le_refl p)
          (by simp only [List.length_cons]; omega)]
        simp [Nat.mod_eq_of_lt hb]
      · have heq : readBytes n (writeBytes buf p (b :: bs)) (p + 1) =
            readBytes n (writeBytes buf (p + 1) bs) (p + 1) := by
          apply readBytes_congr
          intro i hi
          rw [writeBytes_inside (p := p) (by omega)
              (by simp only [List.length_cons]; omega),
            writeBytes_inside (p := p + 1) (by omega) (by omega)]
          rw [show p + 1 + i - p = (p + 1 + i - (p + 1)) + 1 by omega]
          simp
        rw [heq]
        exact ih hbs (fun x hx => hval x (by simp [hx]))

/-! ### Window load/store lemmas -/

theorem loadW_lt (n : Nat) (buf : Nat → Nat) (p : Nat) :
    loadW n buf p < 2 ^ (8 * n) := by
  have := fromBytesLE_lt (readBytes n buf p)
  simpa [loadW] using this

theorem loadW_congr {n p : Nat} {buf1 buf2 : Nat → Nat}
    (h : ∀ i, i < n → buf1 (p + i) = buf2 (p + i)) :
    loadW n buf1 p = loadW n buf2 p := by
  simp only [loadW]
  rw [readBytes_congr h]

theorem loadW_storeW (n : Nat) (buf : Nat → Nat) (p x : Nat) :
    loadW n (storeW n buf p x) p = x % 2 ^ (8 * n) := by
  simp only [loadW, storeW]
  rw [readBytes_writeBytes (by simp) (fun b hb => bytesLE_mem_lt hb)]
  exact fromBytesLE_bytesLE n x

theorem storeW_outside {n p x i : Nat} {buf : Nat → Nat}
    (h : i < p ∨ p + n ≤ i) : storeW n buf p x i = buf i := by
  simp only [storeW]
  exact writeBytes_outside (by simpa using h)

theorem storeW_inside {n p x i : Nat} {buf : Nat → Nat}
    (h1 : p ≤ i) (h2 : i < p + n) :
    storeW n buf p x i = x / 2 ^ (8 * (i - p)) % 256 := by
  simp only [storeW]
  rw [writeBytes_inside h1 (by simpa using h2), getD_bytesLE x (by omega)]
  exact Nat.mod_mod_of_dvd _ (dvd_refl 256)

theorem storeW_wf {n p x : Nat} {buf : Nat → Nat} (h : Wf buf) :
    Wf (storeW n buf p x) := by
  intro i
  by_cases hi : p ≤ i ∧ i < p + n
  · rw [storeW_inside hi.1 hi.2]; exact Nat.mod_lt _ (by norm_num)
  · rw [storeW_outside (by omega)]; exact h i

theorem loadW_succ (k : Nat) (buf : Nat → Nat) (q : Nat) :
    loadW (k + 1) buf q = buf q % 256 + 256 * loadW k buf (q + 1) := by
  show fromBytesLE (buf q % 256 :: readBytes k buf (q + 1)) = _
  simp only [fromBytesLE, loadW]
  rw [Nat.mod_mod_of_dvd _ (dvd_refl 256)]

theorem loadW_div_256 (k : Nat) (buf : Nat → Nat) (q : Nat) :
    loadW (k + 1) buf q / 256 = loadW k buf (q + 1) := by
  rw [loadW_succ, Nat.add_mul_div_left _ _ (by norm_num : (0:Nat) < 256),
    Nat.div_eq_of_lt (Nat.mod_lt _ (by norm_num)), Nat.zero_add]

theorem loadW_split (m n : Nat) (buf : Nat → Nat) (p : Nat) :
    loadW (m + n) buf p = loadW m buf p + 2 ^ (8 * m) * loadW n buf (p + m) := by
  induction m generalizing p with
  | zero => simp [loadW, readBytes, fromBytesLE]
  | succ m ih =>
    rw [show m + 1 + n = (m + n) + 1 by ring, loadW_succ, loadW_succ, ih (p + 1),
      show p + 1 + m = p + (m + 1) by ring, pow_mul_succ_8]
    ring

theorem loadW_byte (buf : Nat → Nat) {n i : Nat} (p : Nat) (h : i < n) :
    loadW n buf p / 2 ^ (8 * i) % 256 = buf (p + i) % 256 := by
  induction n generalizing p i with
  | zero => omega
  | succ n ih =>
    cases i with
    | zero =>
      simp only [Nat.mul_zero, pow_zero, Nat.div_one, loadW_succ]
      rw [Nat.add_mul_mod_self_left, Nat.mod_mod_of_dvd _ (dvd_refl 256)]
      simp
    | succ i =>
      calc loadW (n + 1) buf p / 2 ^ (8 * (i + 1)) % 256
          = loadW (n + 1) buf p / 256 / 2 ^ (8 * i) % 256 := by
            rw [Nat.div_div_eq_div_mul, ← pow_mul_succ_8]
        _ = loadW n buf (p + 1) / 2 ^ (8 * i) % 256 := by rw [loadW_div_256]
        _ = buf (p + 1 + i) % 256 := ih (p + 1) (by omega)
        _ = buf (p + (i + 1)) % 256 := by rw [show p + 1 + i = p + (i + 1) by ring]

/-! ## Bit-level helper lemmas -/

theorem testBit_div_pow (x m j : Nat) :
    Nat.testBit (x / 2 ^ m) j = Nat.testBit x (m + j) := by
  simp only [Nat.testBit_to_div_mod, Nat.div_div_eq_div_mul, ← pow_add]

theorem loadW_testBit (buf : Nat → Nat) {n t : Nat} (p : Nat) (h : t < 8 * n) :
    Nat.testBit (loadW n buf p) t = Nat.testBit (buf (p + t / 8)) (t % 8) := by
  have h8 : t % 8 < 8 := Nat.mod_lt _ (by norm_num)
  have hd : t / 8 < n := by omega
  have e1 : Nat.testBit (loadW n buf p) t
      = Nat.testBit (loadW n buf p / 2 ^ (8 * (t / 8)) % 256) (t % 8) := by
    rw [show (256:Nat) = 2 ^ 8 by norm_num, Nat.testBit_mod_two_pow, testBit_div_pow,
      show 8 * (t / 8) + t % 8 = t by omega]
    simp [h8]
  rw [e1, loadW_byte buf p hd, show (256:Nat) = 2 ^ 8 by norm_num,
    Nat.testBit_mod_two_pow]
  simp [h8]

theorem storeW_testBit {n p x i k : Nat} {buf : Nat → Nat}
    (h1 : p ≤ i) (h2 : i < p + n) (hk : k < 8) :
    Nat.testBit (storeW n buf p x i) k = Nat.testBit x (8 * (i - p) + k) := by
  rw [storeW_inside h1 h2, show (256:Nat) = 2 ^ 8 by norm_num,
    Nat.testBit_mod_two_pow, testBit_div_pow]
  simp [hk]

theorem xor_two_pow_of_lt {lo k : Nat} (h : lo < 2 ^ k) :
    lo ^^^ 2 ^ k = 2 ^ k + lo := by
  apply Nat.eq_of_testBit_eq
  intro i
  rcases lt_trichotomy i k with hik | hik | hik
  · rw [Nat.testBit_xor, Nat.testBit_two_pow_of_ne (by omega),
      Nat.testBit_two_pow_add_gt hik]
    simp
  · subst hik
    rw [Nat.testBit_xor, Nat.testBit_two_pow_self, Nat.testBit_two_pow_add_eq,
      Nat.testBit_lt_two_pow h]
    rfl
  · have h1 : lo < 2 ^ i := lt_of_lt_of_le h (Nat.pow_le_pow_right (by norm_num) (by omega))
    have h2 : 2 ^ k + lo < 2 ^ i := by
      have : 2 ^ k + lo < 2 ^ (k + 1) := by have := pow_succ 2 k; omega
      exact lt_of_lt_of_le this (Nat.pow_le_pow_right (by norm_num) (by omega))
    rw [Nat.testBit_xor, Nat.testBit_two_pow_of_ne (by omega),
      Nat.testBit_lt_two_pow h1, Nat.testBit_lt_two_pow h2]
    rfl

theorem add_xor_two_pow {lo k : Nat} (h : lo < 2 ^ k) :
    (2 ^ k + lo) ^^^ 2 ^ k = lo := by
  rw [← xor_two_pow_of_lt h]
  exact Nat.xor_cancel_right _ _

/-- The `b`-bit all-ones mask shifted left by `s`. -/
theorem mask_mul (b s : Nat) : (2 ^ b - 1) * 2 ^ s = 2 ^ (s + b) - 2 ^ s := by
  have hb : (1:Nat) ≤ 2 ^ b := Nat.one_le_two_pow
  have h1 : 2 ^ b * 2 ^ s = 2 ^ (s + b) := by rw [← pow_add]; congr 1; omega
  have h2 : ((2 ^ b - 1) + 1) * 2 ^ s = 2 ^ (s + b) := by
    rw [Nat.sub_add_cancel hb, h1]
  have h3 : (2 ^ b - 1) * 2 ^ s + 2 ^ s = 2 ^ (s + b) := by rw [← h2]; ring
  omega

/-- A value below bit `s` plus a `b`-bit value shifted to `s` stays below
bit `s + b`. -/
theorem low_part_lt {v b : Nat} (raw s : Nat) (hv : v < 2 ^ b) :
    raw % 2 ^ s + v * 2 ^ s < 2 ^ (s + b) := by
  have hr : raw % 2 ^ s < 2 ^ s := Nat.mod_lt _ (by positivity)
  have h1 : v * 2 ^ s ≤ (2 ^ b - 1) * 2 ^ s := Nat.mul_le_mul_right _ (by omega)
  have h2 := mask_mul b s
  have hs : (0:Nat) < 2 ^ s := by positivity
  have hsb : (2:Nat) ^ s ≤ 2 ^ (s + b) :=
    Nat.pow_le_pow_right (by norm_num) (by omega)
  omega

/-- Disjoint-bit `|` is `+`: `(p + q·2^e) | (r·2^s) = p + r·2^s + q·2^e`
when `p` fits below bit `s` and `r` fits in `e - s` bits. -/
theorem lor_window {p q r s e : Nat} (hp : p < 2 ^ s) (hr : r < 2 ^ (e - s))
    (hse : s ≤ e) :
    (p + q * 2 ^ e) ||| r * 2 ^ s = p + r * 2 ^ s + q * 2 ^ e := by
  have hs_le : (2:Nat) ^ s ≤ 2 ^ e := Nat.pow_le_pow_right (by norm_num) hse
  have hse_mul : 2 ^ s * 2 ^ (e - s) = 2 ^ e := by
    rw [← pow_add]; congr 1; omega
  have hrs : 2 ^ s * r + p < 2 ^ e := by
    have h1 : 2 ^ s * r ≤ 2 ^ s * (2 ^ (e - s) - 1) := Nat.mul_le_mul_left _ (by omega)
    have h2 : 2 ^ s * (2 ^ (e - s) - 1) + 2 ^ s = 2 ^ e := by
      have h3 : 2 ^ (e - s) = (2 ^ (e - s) - 1) + 1 := by
        have : (0:Nat) < 2 ^ (e - s) := by positivity
        omega
      calc 2 ^ s * (2 ^ (e - s) - 1) + 2 ^ s
          = 2 ^ s * ((2 ^ (e - s) - 1) + 1) := by ring
        _ = 2 ^ e := by rw [← h3, hse_mul]
    omega
  have hpe : p < 2 ^ e := lt_of_lt_of_le hp hs_le
  apply Nat.eq_of_testBit_eq
  intro i
  rw [Nat.testBit_or,
    show p + r * 2 ^ s + q * 2 ^ e = 2 ^ e * q + (2 ^ s * r + p) by ring,
    show p + q * 2 ^ e = 2 ^ e * q + p by ring,
    show r * 2 ^ s = 2 ^ s * r + 0 by ring,
    Nat.testBit_mul_pow_two_add q hpe i,
    Nat.testBit_mul_pow_two_add q hrs i,
    Nat.testBit_mul_pow_two_add r hp i,
    Nat.testBit_mul_pow_two_add r (show (0:Nat) < 2 ^ s by positivity) i]
  by_cases h1 : i < s
  · have h2 : i < e := by omega
    simp [h1, h2]
  · by_cases h2 : i < e
    · have hpz : Nat.testBit p i = false :=
        Nat.testBit_lt_two_pow (lt_of_lt_of_le hp (Nat.pow_le_pow_right (by norm_num) (by omega)))
    -- p's bit vanishes at or above s
      simp [h1, h2, hpz]
    · have hrz : Nat.testBit r (i - s) = false :=
        Nat.testBit_lt_two_pow (lt_of_lt_of_le hr (Nat.pow_le_pow_right (by norm_num) (by omega)))
      simp [h1, h2, hrz]

/-- `x & ~maskwindow` over a `W`-bit value, where the mask covers bits
`[t, e)`: the complement `~m` of the `W`-bit value `m = 2^e - 2^t` is
`2^W - 1 - m`, and the conjunction keeps exactly bits `[0,t) ∪ [e,W)`. -/
theorem and_not_window {x t e W : Nat} (hx : x < 2 ^ W) (hte : t ≤ e) (heW : e ≤ W) :
    x &&& (2 ^ W - 1 - (2 ^ e - 2 ^ t)) = x % 2 ^ t + x / 2 ^ e * 2 ^ e := by
  have ht_le : (2:Nat) ^ t ≤ 2 ^ e := Nat.pow_le_pow_right (by norm_num) hte
  have he_le : (2:Nat) ^ e ≤ 2 ^ W := Nat.pow_le_pow_right (by norm_num) heW
  have h1 : 2 ^ e * 2 ^ (W - e) = 2 ^ W := by rw [← pow_add]; congr 1; omega
  have hepos : (0:Nat) < 2 ^ (W - e) := by positivity
  have h2 : 2 ^ e * (2 ^ (W - e) - 1) + 2 ^ e = 2 ^ W := by
    calc 2 ^ e * (2 ^ (W - e) - 1) + 2 ^ e = 2 ^ e * ((2 ^ (W - e) - 1) + 1) := by ring
      _ = 2 ^ W := by rw [show 2 ^ (W - e) - 1 + 1 = 2 ^ (W - e) by omega, h1]
  have htpos : (0:Nat) < 2 ^ t := by positivity
  have hmask : 2 ^ W - 1 - (2 ^ e - 2 ^ t) = 2 ^ e * (2 ^ (W - e) - 1) + (2 ^ t - 1) := by
    omega
  have hb : 2 ^ t - 1 < 2 ^ e := by omega
  have hxm : x % 2 ^ t < 2 ^ e := lt_of_lt_of_le (Nat.mod_lt _ htpos) ht_le
  apply Nat.eq_of_testBit_eq
  intro i
  rw [Nat.testBit_and, hmask,
    Nat.testBit_mul_pow_two_add _ hb i,
    show x % 2 ^ t + x / 2 ^ e * 2 ^ e = 2 ^ e * (x / 2 ^ e) + x % 2 ^ t by ring,
    Nat.testBit_mul_pow_two_add _ hxm i]
  by_cases hit : i < t
  · have hie : i < e := by omega
    simp [hit, hie, Nat.testBit_mod_two_pow, Nat.testBit_two_pow_sub_one]
  · by_cases hie : i < e
    · simp [hit, hie, Nat.testBit_mod_two_pow, Nat.testBit_two_pow_sub_one]
    · by_cases hiW : i < W
      · have : i - e < W - e := by omega
        simp [hit, hie, this, Nat.testBit_two_pow_sub_one, testBit_div_pow,
          show e + (i - e) = i by omega]
      · have hxz : Nat.testBit x i = false :=
          Nat.testBit_lt_two_pow (lt_of_lt_of_le hx (Nat.pow_le_pow_right (by norm_num) (by omega)))
        have : ¬(i - e < W - e) := by omega
        simp [hit, hie, this, Nat.testBit_two_pow_sub_one, testBit_div_pow,
          show e + (i - e) = i by omega, hxz]

theorem and_two_pow_sub_one (x n : Nat) : x &&& (2 ^ n - 1) = x % 2 ^ n := by
  apply Nat.eq_of_testBit_eq
  intro i
  rw [Nat.testBit_and, Nat.testBit_two_pow_sub_one, Nat.testBit_mod_two_pow]
  by_cases h : i < n <;> simp [h]

theorem two_pow_sub_one_split {b c : Nat} (h : c ≤ b) :
    2 ^ b - 1 = 2 ^ c * (2 ^ (b - c) - 1) + (2 ^ c - 1) := by
  have hcpos : (0:Nat) < 2 ^ c := by positivity
  have hcb : (2:Nat) ^ c ≤ 2 ^ b := Nat.pow_le_pow_right (by norm_num) h
  have h2 : 2 ^ c * (2 ^ (b - c) - 1) = 2 ^ b - 2 ^ c := by
    rw [mul_comm, mask_mul, show c + (b - c) = b by omega]
  omega

theorem two_pow_sub_one_div {b c : Nat} (h : c ≤ b) :
    (2 ^ b - 1) / 2 ^ c = 2 ^ (b - c) - 1 := by
  have hcpos : (0:Nat) < 2 ^ c := by positivity
  rw [two_pow_sub_one_split h, Nat.mul_add_div hcpos,
    Nat.div_eq_of_lt (by omega), Nat.add_zero]

theorem two_pow_sub_one_mod {b c : Nat} (h : c ≤ b) :
    (2 ^ b - 1) % 2 ^ c = 2 ^ c - 1 := by
  have hcpos : (0:Nat) < 2 ^ c := by positivity
  rw [two_pow_sub_one_split h, Nat.mul_add_mod, Nat.mod_eq_of_lt (by omega)]

theorem mul_pow_mod {s W : Nat} (a : Nat) (h : s ≤ W) :
    a * 2 ^ s % 2 ^ W = a % 2 ^ (W - s) * 2 ^ s := by
  conv_lhs => rw [show (2:Nat) ^ W = 2 ^ (W - s) * 2 ^ s by
    rw [← pow_add]; congr 1; omega]
  exact Nat.mul_mod_mul_right _ _ _

theorem mask_mul_pow_mod {b s W : Nat} (hs : s ≤ W) :
    (2 ^ b - 1) * 2 ^ s % 2 ^ W = 2 ^ min (s + b) W - 2 ^ s := by
  by_cases hbW : s + b ≤ W
  · have h2 : (2:Nat) ^ (s + b) ≤ 2 ^ W := Nat.pow_le_pow_right (by norm_num) hbW
    have h3 : (0:Nat) < 2 ^ s := by positivity
    have h4 : (0:Nat) < 2 ^ (s + b) := by positivity
    rw [mask_mul, Nat.mod_eq_of_lt (by omega), min_eq_left hbW]
  · have hWs : W - s ≤ b := by omega
    rw [mul_pow_mod _ hs, two_pow_sub_one_mod hWs, min_eq_right (by omega : W ≤ s + b),
      mask_mul, show s + (W - s) = W by omega]

/-! ## The clear-and-insert operation

`clear_or raw s b v` is the arithmetic form of
`(raw & ~(mask64<b> << s)) | (v << s)` for `v < 2^b`: bits `[s, s+b)` of
`raw` are cleared and replaced by `v`. -/

def clear_or (raw s b v : Nat) : Nat :=
  raw % 2 ^ s + v * 2 ^ s + raw / 2 ^ (s + b) * 2 ^ (s + b)

theorem clear_or_decompose (raw s b v : Nat) :
    clear_or raw s b v
      = 2 ^ s * (v + 2 ^ b * (raw / 2 ^ (s + b))) + raw % 2 ^ s := by
  rw [clear_or, pow_add]; ring

theorem clear_or_div_mod {v b : Nat} (raw s : Nat) (hv : v < 2 ^ b) :
    clear_or raw s b v / 2 ^ s % 2 ^ b = v := by
  have hr : raw % 2 ^ s < 2 ^ s := Nat.mod_lt _ (by positivity)
  rw [clear_or_decompose,
    show 2 ^ s * (v + 2 ^ b * (raw / 2 ^ (s + b))) + raw % 2 ^ s
      = raw % 2 ^ s + 2 ^ s * (v + 2 ^ b * (raw / 2 ^ (s + b))) by ring,
    Nat.add_mul_div_left _ _ (show (0:Nat) < 2 ^ s by positivity),
    Nat.div_eq_of_lt hr, Nat.zero_add,
    show v + 2 ^ b * (raw / 2 ^ (s + b)) = v + 2 ^ b * (raw / 2 ^ (s + b)) by rfl,
    Nat.add_mul_mod_self_left, Nat.mod_eq_of_lt hv]

theorem clear_or_mod (raw s b v : Nat) :
    clear_or raw s b v % 2 ^ s = raw % 2 ^ s := by
  have hr : raw % 2 ^ s < 2 ^ s := Nat.mod_lt _ (by positivity)
  rw [clear_or_decompose,
    show 2 ^ s * (v + 2 ^ b * (raw / 2 ^ (s + b))) + raw % 2 ^ s
      = raw % 2 ^ s + (v + 2 ^ b * (raw / 2 ^ (s + b))) * 2 ^ s by ring,
    Nat.add_mul_mod_self_right, Nat.mod_eq_of_lt hr]

theorem clear_or_div_high {v b : Nat} (raw s : Nat) (hv : v < 2 ^ b) :
    clear_or raw s b v / 2 ^ (s + b) = raw / 2 ^ (s + b) := by
  have hr : raw % 2 ^ s < 2 ^ s := Nat.mod_lt _ (by positivity)
  have hlow : raw % 2 ^ s + v * 2 ^ s < 2 ^ (s + b) := low_part_lt raw s hv
  rw [clear_or,
    show raw % 2 ^ s + v * 2 ^ s + raw / 2 ^ (s + b) * 2 ^ (s + b)
      = raw % 2 ^ s + v * 2 ^ s + 2 ^ (s + b) * (raw / 2 ^ (s + b)) by ring,
    Nat.add_mul_div_left _ _ (show (0:Nat) < 2 ^ (s + b) by positivity),
    Nat.div_eq_of_lt hlow, Nat.zero_add]

theorem clear_or_lt {v b raw s m : Nat} (hv : v < 2 ^ b) (hraw : raw < 2 ^ m)
    (h : s + b ≤ m) : clear_or raw s b v < 2 ^ m := by
  have hr : raw % 2 ^ s < 2 ^ s := Nat.mod_lt _ (by positivity)
  have hlow : raw % 2 ^ s + v * 2 ^ s < 2 ^ (s + b) := low_part_lt raw s hv
  have hH : raw / 2 ^ (s + b) < 2 ^ (m - (s + b)) := by
    apply Nat.div_lt_of_lt_mul
    calc raw < 2 ^ m := hraw
      _ = 2 ^ (s + b) * 2 ^ (m - (s + b)) := by rw [← pow_add]; congr 1; omega
  have : (raw / 2 ^ (s + b) + 1) * 2 ^ (s + b) ≤ 2 ^ (m - (s + b)) * 2 ^ (s + b) :=
    Nat.mul_le_mul_right _ (by omega)
  have hm : (2:Nat) ^ (m - (s + b)) * 2 ^ (s + b) = 2 ^ m := by
    rw [← pow_add]; congr 1; omega
  rw [clear_or]
  have expand : (raw / 2 ^ (s + b) + 1) * 2 ^ (s + b)
      = raw / 2 ^ (s + b) * 2 ^ (s + b) + 2 ^ (s + b) := by ring
  omega

theorem clear_or_testBit {v b : Nat} (raw s t : Nat) (hv : v < 2 ^ b) :
    Nat.testBit (clear_or raw s b v) t =
      if t < s then Nat.testBit raw t
      else if t < s + b then Nat.testBit v (t - s)
      else Nat.testBit raw t := by
  have hr : raw % 2 ^ s < 2 ^ s := Nat.mod_lt _ (by positivity)
  rw [clear_or_decompose, Nat.testBit_mul_pow_two_add _ hr t]
  by_cases h1 : t < s
  · simp [h1, Nat.testBit_mod_two_pow]
  · rw [if_neg h1,
      show v + 2 ^ b * (raw / 2 ^ (s + b)) = 2 ^ b * (raw / 2 ^ (s + b)) + v by ring,
      Nat.testBit_mul_pow_two_add _ hv (t - s)]
    by_cases h2 : t < s + b
    · have : t - s < b := by omega
      simp [h1, h2, this]
    · have h3 : ¬(t - s < b) := by omega
      simp only [h1, h3, if_neg, if_false, if_neg h2]
      rw [testBit_div_pow, show s + b + (t - s - b) = t by omega]

/-! ## The bit-window engine (`detail::read_bits_le` / `detail::write_bits_le`) -/

/-- `detail::mask64<Bits>`: `(Bits == 64) ? ~0ull : ((1ull << Bits) - 1ull)`.
The 64-bit case is kept separate exactly as in the source, so the mask is
well-defined without a 64-bit shift. -/
def mask64 (bits : Nat) : Nat := if bits = 64 then 2 ^ 64 - 1 else 2 ^ bits - 1

/-- `detail::bit_window::need_bytes = (shift + BitCount + 7) >> 3`. -/
def needBytes (bitOff bits : Nat) : Nat := (bitOff % 8 + bits + 7) / 8

/-- `detail::read_bits_le<BitOffset, BitCount>` (`__uint128_t` branch): load
the minimal byte window, shift right by the in-byte offset, truncate to `u64`
(`% 2^64`) and mask with `mask64<BitCount>`. -/
def read_bits_le (bitOff bits : Nat) (buf : Nat → Nat) : Nat :=
  loadW (needBytes bitOff bits) buf (bitOff / 8) / 2 ^ (bitOff % 8) % 2 ^ 64 &&&
    mask64 bits

/-- `detail::write_bits_le<BitOffset, BitCount>` (`__uint128_t` branch):
`value &= mask64; raw = (raw & ~m) | (value << shift)` with
`m = mask64 << shift` and `~` the 128-bit complement (`2^128 - 1 - m`), then
store the window back byte by byte. -/
def write_bits_le (bitOff bits : Nat) (buf : Nat → Nat) (value : Nat) :
    Nat → Nat :=
  let byte := bitOff / 8
  let s := bitOff % 8
  let need := needBytes bitOff bits
  let v := value &&& mask64 bits
  let raw := loadW need buf byte
  let raw2 := raw &&& (2 ^ 128 - 1 - mask64 bits * 2 ^ s) ||| v * 2 ^ s
  storeW need buf byte raw2

theorem mask64_eq {bits : Nat} (h : bits ≤ 64) : mask64 bits = 2 ^ bits - 1 := by
  by_cases hb : bits = 64 <;> simp [mask64, hb]

theorem and_mask64 {bits : Nat} (x : Nat) (h : bits ≤ 64) :
    x &&& mask64 bits = x % 2 ^ bits := by
  rw [mask64_eq h, and_two_pow_sub_one]

theorem needBytes_ge (bitOff bits : Nat) :
    bitOff % 8 + bits ≤ 8 * needBytes bitOff bits := by
  simp only [needBytes]
  omega

theorem needBytes_le_9 {bitOff bits : Nat} (h : bits ≤ 64) :
    needBytes bitOff bits ≤ 9 := by
  have := Nat.mod_lt bitOff (show 0 < 8 by norm_num)
  simp only [needBytes]
  omega

theorem read_bits_le_eq {bitOff bits : Nat} (buf : Nat → Nat) (h : bits ≤ 64) :
    read_bits_le bitOff bits buf
      = loadW (needBytes bitOff bits) buf (bitOff / 8) / 2 ^ (bitOff % 8) %
          2 ^ bits := by
  rw [read_bits_le, and_mask64 _ h, Nat.mod_mod_of_dvd _ (Nat.pow_dvd_pow 2 h)]

theorem write_bits_le_eq {bitOff bits : Nat} (buf : Nat → Nat) (value : Nat)
    (h1 : 1 ≤ bits) (h64 : bits ≤ 64) :
    write_bits_le bitOff bits buf value
      = storeW (needBytes bitOff bits) buf (bitOff / 8)
          (clear_or (loadW (needBytes bitOff bits) buf (bitOff / 8))
            (bitOff % 8) bits (value % 2 ^ bits)) := by
  have hs : bitOff % 8 < 8 := Nat.mod_lt _ (by norm_num)
  have hneed := needBytes_ge bitOff bits
  have hneed9 := @needBytes_le_9 bitOff bits h64
  have hraw : loadW (needBytes bitOff bits) buf (bitOff / 8) <
      2 ^ (8 * needBytes bitOff bits) := loadW_lt _ _ _
  have hraw128 : loadW (needBytes bitOff bits) buf (bitOff / 8) < 2 ^ 128 :=
    lt_of_lt_of_le hraw (Nat.pow_le_pow_right (by norm_num) (by omega))
  have hv : value % 2 ^ bits < 2 ^ bits := Nat.mod_lt _ (by positivity)
  unfold write_bits_le
  simp only []
  rw [and_mask64 _ h64, mask64_eq h64, mask_mul,
    and_not_window hraw128 (by omega : bitOff % 8 ≤ bitOff % 8 + bits) (by omega),
    lor_window (Nat.mod_lt _ (by positivity)) (by
      rw [Nat.add_sub_cancel_left]
      exact hv) (by omega)]
  rfl

theorem write_bits_le_outside {bitOff bits value i : Nat} (buf : Nat → Nat)
    (h1 : 1 ≤ bits) (h64 : bits ≤ 64)
    (h : i < bitOff / 8 ∨ bitOff / 8 + needBytes bitOff bits ≤ i) :
    write_bits_le bitOff bits buf value i = buf i := by
  rw [write_bits_le_eq buf value h1 h64]
  exact storeW_outside h

/-- Round trip through the bit window: reading the field back after a write
yields the written value truncated to `bits` bits. -/
theorem read_write_bits_le (bitOff bits value : Nat) (buf : Nat → Nat)
    (h1 : 1 ≤ bits) (h64 : bits ≤ 64) :
    read_bits_le bitOff bits (write_bits_le bitOff bits buf value)
      = value % 2 ^ bits := by
  rw [read_bits_le_eq _ h64, write_bits_le_eq _ _ h1 h64, loadW_storeW]
  have hle : bitOff % 8 + bits ≤ 8 * needBytes bitOff bits := needBytes_ge _ _
  have hraw : loadW (needBytes bitOff bits) buf (bitOff / 8) <
      2 ^ (8 * needBytes bitOff bits) := loadW_lt _ _ _
  have hv : value % 2 ^ bits < 2 ^ bits := Nat.mod_lt _ (by positivity)
  rw [Nat.mod_eq_of_lt (clear_or_lt hv hraw hle)]
  exact clear_or_div_mod _ _ hv

/-- RMW preservation: every bit of the buffer outside the field's bit range
`[bitOff, bitOff + bits)` is unchanged by `write_bits_le` (bits of the bytes
inside the touched window included). -/
theorem write_bits_le_preserves {bitOff bits value : Nat} (buf : Nat → Nat)
    (h1 : 1 ≤ bits) (h64 : bits ≤ 64) {i k : Nat} (hk : k < 8)
    (hout : 8 * i + k < bitOff ∨ bitOff + bits ≤ 8 * i + k) :
    Nat.testBit (write_bits_le bitOff bits buf value i) k
      = Nat.testBit (buf i) k := by
  have hs : bitOff % 8 < 8 := Nat.mod_lt _ (by norm_num)
  by_cases hin : bitOff / 8 ≤ i ∧ i < bitOff / 8 + needBytes bitOff bits
  · rw [write_bits_le_eq buf value h1 h64, storeW_testBit hin.1 hin.2 hk]
    have hv : value % 2 ^ bits < 2 ^ bits := Nat.mod_lt _ (by positivity)
    rw [clear_or_testBit _ _ _ hv]
    have hb8 : bitOff = 8 * (bitOff / 8) + bitOff % 8 := by omega
    set t := 8 * (i - bitOff / 8) + k with ht
    have htlt : t < 8 * needBytes bitOff bits := by omega
    have hrel : 8 * i + k = 8 * (bitOff / 8) + t := by omega
    have hcase : t < bitOff % 8 ∨ bitOff % 8 + bits ≤ t := by omega
    have hres : Nat.testBit (loadW (needBytes bitOff bits) buf (bitOff / 8)) t
        = Nat.testBit (buf i) k := by
      rw [loadW_testBit buf _ htlt,
        show t / 8 = i - bitOff / 8 by omega,
        show t % 8 = k by omega,
        show bitOff / 8 + (i - bitOff / 8) = i by omega]
    rcases hcase with hc | hc
    · rw [if_pos hc]; exact hres
    · rw [if_neg (by omega), if_neg (by omega)]; exact hres
  · rw [write_bits_le_outside buf h1 h64 (by omega)]

/-! ## Endianness, byte swap, scalar loads/stores -/

/-- The three endian tags (`native_endian_t`, `little_endian_t`,
`big_endian_t`).  The host byte order is a parameter `hostLE` of the
embedding (`std::endian::native == std::endian::little`). -/
inductive Endian
  | native
  | little
  | big
deriving DecidableEq, Repr

/-- `detail::need_bswap<EndianTag>`. -/
def need_bswap (hostLE : Bool) : Endian → Bool
  | .little => !hostLE
  | .big => hostLE
  | .native => false

/-- `detail::is_native_endian<EndianTag>`. -/
def is_native_endian (hostLE : Bool) : Endian → Bool
  | .native => true
  | .little => hostLE
  | .big => !hostLE

/-- `detail::bswap<U>`: reverse the `n`-byte representation of `x`
(`__builtin_bswapN` / the portable shift cascade). -/
def bswapN (n x : Nat) : Nat := fromBytesLE ((bytesLE n x).reverse)

/-- `detail::load_pod_le<U>`: `memcpy` load of an `n`-byte unsigned integer,
which reads the bytes in host order. -/
def load_pod (hostLE : Bool) (n : Nat) (buf : Nat → Nat) (p : Nat) : Nat :=
  if hostLE then loadW n buf p else fromBytesLE ((readBytes n buf p).reverse)

/-- `detail::store_pod_le<U>`: `memcpy` store of an `n`-byte unsigned
integer, which writes the bytes in host order. -/
def store_pod (hostLE : Bool) (n : Nat) (buf : Nat → Nat) (p : Nat) (x : Nat) :
    Nat → Nat :=
  if hostLE then storeW n buf p x else writeBytes buf p ((bytesLE n x).reverse)

theorem bswapN_lt (n x : Nat) : bswapN n x < 2 ^ (8 * n) := by
  have h := fromBytesLE_lt ((bytesLE n x).reverse)
  simpa [bswapN] using h

theorem bswapN_bswapN {n x : Nat} (hx : x < 2 ^ (8 * n)) :
    bswapN n (bswapN n x) = x := by
  unfold bswapN
  have h1 : bytesLE ((bytesLE n x).reverse).length
      (fromBytesLE ((bytesLE n x).reverse)) = (bytesLE n x).reverse :=
    bytesLE_fromBytesLE _ (fun b hb => bytesLE_mem_lt (List.mem_reverse.mp hb))
  simp only [List.length_reverse, length_bytesLE] at h1
  rw [h1, List.reverse_reverse, fromBytesLE_bytesLE, Nat.mod_eq_of_lt hx]

theorem load_store_pod (hostLE : Bool) (n : Nat) (buf : Nat → Nat) (p x : Nat) :
    load_pod hostLE n (store_pod hostLE n buf p x) p = x % 2 ^ (8 * n) := by
  cases hostLE with
  | true => simp [load_pod, store_pod, loadW_storeW]
  | false =>
    simp only [load_pod, store_pod, if_neg Bool.false_ne_true, Bool.false_eq_true,
      if_false]
    rw [readBytes_writeBytes (by simp)
        (fun b hb => bytesLE_mem_lt (List.mem_reverse.mp hb)),
      List.reverse_reverse, fromBytesLE_bytesLE]

theorem store_pod_outside {hostLE : Bool} {n p x i : Nat} {buf : Nat → Nat}
    (h : i < p ∨ p + n ≤ i) : store_pod hostLE n buf p x i = buf i := by
  cases hostLE with
  | true => exact storeW_outside h
  | false =>
    simp only [store_pod, Bool.false_eq_true, if_false]
    exact writeBytes_outside (by simpa using h)

/-! ## Sign handling (`detail::sign_extend`, scalar `static_cast`) -/

/-- Reinterpret a `u64` bit pattern as an `int64_t` (mathematical value). -/
def toInt64 (x : Nat) : Int :=
  if x % 2 ^ 64 < 2 ^ 63 then ((x % 2 ^ 64 : Nat) : Int)
  else ((x % 2 ^ 64 : Nat) : Int) - 2 ^ 64

/-- `static_cast<S>(x)` for the `bits`-bit signed type `S`, widened to
`int64_t`: the two's-complement value of the low `bits` bits of `x`. -/
def toSigned (bits x : Nat) : Int :=
  if x % 2 ^ bits < 2 ^ (bits - 1) then ((x % 2 ^ bits : Nat) : Int)
  else ((x % 2 ^ bits : Nat) : Int) - 2 ^ bits

/-- `detail::sign_extend<Bits, Signed>`: unsigned values pass through; a
signed 64-bit value is reinterpreted; otherwise `(x ^ sign) - sign` is
computed in `u64`, the wrap-around subtraction written as addition of
`2^64 - sign`. -/
def sign_extend (bits : Nat) (signed : Bool) (x : Nat) : Int :=
  if !signed then (x : Int)
  else if bits = 64 then toInt64 x
  else toInt64 ((x ^^^ 2 ^ (bits - 1)) + (2 ^ 64 - 2 ^ (bits - 1)))

theorem toSigned_mod (bits v : Nat) : toSigned bits (v % 2 ^ bits) = toSigned bits v := by
  simp [toSigned, Nat.mod_mod_of_dvd _ (dvd_refl (2 ^ bits))]

/-- The xor-and-subtract trick computes exactly two's-complement
reinterpretation on in-range inputs. -/
theorem sign_extend_eq {bits x : Nat} (h1 : 1 ≤ bits) (h64 : bits ≤ 64)
    (hx : x < 2 ^ bits) : sign_extend bits true x = toSigned bits x := by
  by_cases hb : bits = 64
  · subst hb
    simp [sign_extend, toInt64, toSigned, Nat.mod_eq_of_lt hx]
  · have hblt : bits < 64 := by omega
    have hx64 : x < 2 ^ 64 :=
      lt_of_lt_of_le hx (Nat.pow_le_pow_right (by norm_num) h64)
    have hsplit : 2 ^ bits = 2 ^ (bits - 1) * 2 := by
      rw [← pow_succ]
      congr 1
      omega
    have hs63 : (2:Nat) ^ (bits - 1) ≤ 2 ^ 63 :=
      Nat.pow_le_pow_right (by norm_num) (by omega)
    have hs64 : (2:Nat) ^ (bits - 1) ≤ 2 ^ 64 :=
      Nat.pow_le_pow_right (by norm_num) (by omega)
    have hb64 : (2:Nat) ^ bits ≤ 2 ^ 64 :=
      Nat.pow_le_pow_right (by norm_num) h64
    simp only [sign_extend, Bool.not_true, Bool.false_eq_true, if_false,
      if_neg hb]
    by_cases hlt : x < 2 ^ (bits - 1)
    · rw [xor_two_pow_of_lt hlt,
        show 2 ^ (bits - 1) + x + (2 ^ 64 - 2 ^ (bits - 1)) = x + 2 ^ 64 by omega]
      have hmod : (x + 2 ^ 64) % 2 ^ 64 = x := by
        rw [Nat.add_mod_right, Nat.mod_eq_of_lt hx64]
      rw [toInt64, hmod, if_pos (by omega)]
      rw [toSigned, Nat.mod_eq_of_lt hx, if_pos hlt]
    · have hlo : x - 2 ^ (bits - 1) < 2 ^ (bits - 1) := by omega
      rw [show x = 2 ^ (bits - 1) + (x - 2 ^ (bits - 1)) by omega,
        add_xor_two_pow hlo]
      set lo := x - 2 ^ (bits - 1) with hlodef
      have hval : lo + (2 ^ 64 - 2 ^ (bits - 1)) < 2 ^ 64 := by omega
      have hge : 2 ^ 63 ≤ lo + (2 ^ 64 - 2 ^ (bits - 1)) := by omega
      have hlt2 : 2 ^ (bits - 1) + lo < 2 ^ bits := by omega
      rw [toInt64, Nat.mod_eq_of_lt hval, if_neg (by omega)]
      rw [toSigned, Nat.mod_eq_of_lt hlt2, if_neg (by omega)]
      have e1 : ((lo + (2 ^ 64 - 2 ^ (bits - 1)) : Nat) : Int)
          = (lo : Int) + 2 ^ 64 - 2 ^ (bits - 1) := by
        rw [Nat.cast_add, Nat.cast_sub hs64]
        push_cast
        ring
      have e2 : ((2 ^ (bits - 1) + lo : Nat) : Int) = 2 ^ (bits - 1) + (lo : Int) := by
        push_cast
        ring
      have hsplitZ : (2:Int) ^ bits = 2 ^ (bits - 1) * 2 := by exact_mod_cast hsplit
      rw [e1, e2, hsplitZ]
      ring

/-! ## Integer field accessors (`detail::get_impl` / `detail::set_impl`,
Integer-field paths) -/

/-- The metadata of an `int_field<Name, Bits, Signed, EndianTag>`. -/
structure IntFieldSpec where
  bits : Nat
  signed : Bool
  endian : Endian

/-- The scalar fast-path condition of `get_impl` / `set_impl`:
`(shift == 0) && (bits == 8 || bits == 16 || bits == 32 || bits == 64)`. -/
def is_scalar (bitOff bits : Nat) : Bool :=
  bitOff % 8 == 0 && (bits == 8 || bits == 16 || bits == 32 || bits == 64)

/-- `detail::get_impl<Packet, Mutable, I>` restricted to an Integer field at
absolute bit offset `bitOff`: scalar path (pod load + optional bswap + cast)
or bitfield path (`read_bits_le` + `sign_extend`). -/
def get_impl_int (hostLE : Bool) (f : IntFieldSpec) (bitOff : Nat)
    (buf : Nat → Nat) : Int :=
  if is_scalar bitOff f.bits then
    let n := f.bits / 8
    let x0 := load_pod hostLE n buf (bitOff / 8)
    let x := if need_bswap hostLE f.endian then bswapN n x0 else x0
    if f.signed then toSigned f.bits x else (x : Int)
  else
    sign_extend f.bits f.signed (read_bits_le bitOff f.bits buf)

/-- `detail::set_impl<Packet, Mutable, I>` restricted to an Integer field:
scalar path (`static_cast<U>` truncation + optional bswap + pod store) or
bitfield path (`write_bits_le`). -/
def set_impl_int (hostLE : Bool) (f : IntFieldSpec) (bitOff : Nat)
    (buf : Nat → Nat) (v : Nat) : Nat → Nat :=
  if is_scalar bitOff f.bits then
    let n := f.bits / 8
    let x0 := v % 2 ^ f.bits
    let x := if need_bswap hostLE f.endian then bswapN n x0 else x0
    store_pod hostLE n buf (bitOff / 8) x
  else
    write_bits_le bitOff f.bits buf v

theorem scalar_bits_cases {bitOff bits : Nat} (h : is_scalar bitOff bits = true) :
    bitOff % 8 = 0 ∧ (bits = 8 ∨ bits = 16 ∨ bits = 32 ∨ bits = 64) := by
  simp only [is_scalar, Bool.and_eq_true, Bool.or_eq_true, beq_iff_eq] at h
  tauto

/-- **C1** — For every Integer field (width 1..64, signed or unsigned, any
endian mode, at any bit offset, on either host byte order) and every input
`v`, `set(v); get()` returns `v mod 2^bits`, sign-extended to 64 bits for
signed fields and zero-extended for unsigned fields.  The truncation mask is
`mask64`, whose `bits = 64` case is defined without a 64-bit shift. -/
theorem c1_int_set_get_roundtrip (hostLE : Bool) (f : IntFieldSpec)
    (bitOff : Nat) (buf : Nat → Nat) (v : Nat)
    (h1 : 1 ≤ f.bits) (h64 : f.bits ≤ 64) :
    get_impl_int hostLE f bitOff (set_impl_int hostLE f bitOff buf v)
      = if f.signed then toSigned f.bits v
        else ((v % 2 ^ f.bits : Nat) : Int) := by
  by_cases hsc : is_scalar bitOff f.bits
  · obtain ⟨hsh, hbits⟩ := scalar_bits_cases hsc
    have h8n : 8 * (f.bits / 8) = f.bits := by
      rcases hbits with h | h | h | h <;> simp [h]
    have hv' : v % 2 ^ f.bits < 2 ^ f.bits := Nat.mod_lt _ (by positivity)
    simp only [get_impl_int, set_impl_int, if_pos hsc]
    by_cases hbs : need_bswap hostLE f.endian
    · simp only [hbs, if_true]
      have e1 : bswapN (f.bits / 8) (v % 2 ^ f.bits) % 2 ^ (8 * (f.bits / 8))
          = bswapN (f.bits / 8) (v % 2 ^ f.bits) :=
        Nat.mod_eq_of_lt (bswapN_lt _ _)
      have e2 : bswapN (f.bits / 8) (bswapN (f.bits / 8) (v % 2 ^ f.bits))
          = v % 2 ^ f.bits := bswapN_bswapN (by rw [h8n]; exact hv')
      rw [load_store_pod, e1, e2]
      cases hsg : f.signed
      · simp
      · simp [toSigned_mod]
    · simp only [hbs, if_false, Bool.false_eq_true]
      have e3 : v % 2 ^ f.bits % 2 ^ (8 * (f.bits / 8)) = v % 2 ^ f.bits := by
        rw [h8n]
        exact Nat.mod_mod_of_dvd _ (dvd_refl _)
      rw [load_store_pod, e3]
      cases hsg : f.signed
      · simp
      · simp [toSigned_mod]
  · simp only [get_impl_int, set_impl_int, if_neg hsc]
    rw [read_write_bits_le _ _ _ _ h1 h64]
    cases hsg : f.signed
    · simp [sign_extend]
    · simp only [if_true]
      rw [sign_extend_eq h1 h64 (Nat.mod_lt _ (by positivity)), toSigned_mod]

theorem c1_int_set_get_roundtrip_witness :
    ((1 ≤ 11 ∧ 11 ≤ 64) ∧
      get_impl_int true ⟨11, true, Endian.native⟩ 5
        (set_impl_int true ⟨11, true, Endian.native⟩ 5 (fun _ => 0) 1024)
        = -1024) ∧
    get_impl_int false ⟨64, false, Endian.big⟩ 8
      (set_impl_int false ⟨64, false, Endian.big⟩ 8 (fun _ => 7)
        (2 ^ 64 + 3)) = 3 := by
  refine ⟨⟨⟨by norm_num, by norm_num⟩, ?_⟩, ?_⟩
  · have h := c1_int_set_get_roundtrip true ⟨11, true, Endian.native⟩ 5
      (fun _ => 0) 1024 (by norm_num) (by norm_num)
    rw [h]
    decide
  · have h := c1_int_set_get_roundtrip false ⟨64, false, Endian.big⟩ 8
      (fun _ => 7) (2 ^ 64 + 3) (by norm_num) (by norm_num)
    rw [h]
    norm_num

/-- **C2** — A bitfield `set` (the non-scalar path, `write_bits_le`) touches
only the window of `ceil((shift + bits)/8) ≤ 9` bytes starting at byte
`bitOff/8`: every byte outside the window is unchanged, and inside the
window every bit whose absolute bit position lies outside
`[bitOff, bitOff + bits)` is bit-identical before and after. -/
theorem c2_bitfield_rmw_window (bitOff bits v : Nat) (buf : Nat → Nat)
    (h1 : 1 ≤ bits) (h64 : bits ≤ 64) :
    needBytes bitOff bits = (bitOff % 8 + bits + 7) / 8 ∧
    needBytes bitOff bits ≤ 9 ∧
    (∀ i, i < bitOff / 8 ∨ bitOff / 8 + needBytes bitOff bits ≤ i →
      write_bits_le bitOff bits buf v i = buf i) ∧
    (∀ i k, k < 8 →
      8 * i + k < bitOff ∨ bitOff + bits ≤ 8 * i + k →
      Nat.testBit (write_bits_le bitOff bits buf v i) k
        = Nat.testBit (buf i) k) := by
  refine ⟨rfl, needBytes_le_9 h64, ?_, ?_⟩
  · intro i hi
    exact write_bits_le_outside buf h1 h64 hi
  · intro i k hk hout
    exact write_bits_le_preserves buf h1 h64 hk hout

theorem c2_bitfield_rmw_window_witness :
    (1 ≤ 11 ∧ 11 ≤ 64) ∧
    write_bits_le 5 11 (fun _ => 255) 1445 3 = 255 ∧
    Nat.testBit (write_bits_le 5 11 (fun _ => 255) 1445 0) 3
      = Nat.testBit 255 3 := by
  have h := c2_bitfield_rmw_window 5 11 1445 (fun _ => 255)
    (by norm_num) (by norm_num)
  refine ⟨⟨by norm_num, by norm_num⟩, ?_, ?_⟩
  · have := h.2.2.1 3 (Or.inr (by norm_num [needBytes]))
    simpa using this
  · have := h.2.2.2 0 3 (by norm_num) (Or.inl (by norm_num))
    simpa using this

/-- Byte `i` of a scalar store through `store_pod`, in terms of the stored
value: host-little stores the little-endian bytes in order, host-big stores
them reversed. -/
theorem store_pod_byte (hostLE : Bool) {n p i : Nat} (buf : Nat → Nat)
    (x : Nat) (h1 : p ≤ i) (h2 : i < p + n) :
    store_pod hostLE n buf p x i
      = if hostLE then x / 2 ^ (8 * (i - p)) % 256
        else x / 2 ^ (8 * (n - 1 - (i - p))) % 256 := by
  cases hostLE with
  | true =>
    simp only [if_true]
    exact storeW_inside h1 h2
  | false =>
    simp only [store_pod, Bool.false_eq_true, if_false]
    rw [writeBytes_inside h1 (by simpa using h2)]
    have hlt : i - p < ((bytesLE n x).reverse).length := by simp; omega
    have hlen : ((bytesLE n x).reverse).length = n := by simp
    rw [List.getD_eq_getElem _ _ hlt]
    rw [List.getElem_reverse]
    simp only [length_bytesLE]
    rw [← List.getD_eq_getElem _ 0, getD_bytesLE x (by omega)]
    exact Nat.mod_mod_of_dvd _ (dvd_refl 256)

/-- **C6** — Setting `0x11223344` through a byte-aligned 32-bit unsigned
field tagged little-endian yields bytes `[0x44, 0x33, 0x22, 0x11]` at the
field's offset, and through a big-endian-tagged field `[0x11, 0x22, 0x33,
0x44]`, on either host byte order. -/
theorem c6_endian_golden_vectors (hostLE : Bool) (buf : Nat → Nat)
    (byteOff i : Nat) (hi : i < 4) :
    set_impl_int hostLE ⟨32, false, Endian.little⟩ (8 * byteOff) buf
        0x11223344 (byteOff + i)
      = [0x44, 0x33, 0x22, 0x11].getD i 0 ∧
    set_impl_int hostLE ⟨32, false, Endian.big⟩ (8 * byteOff) buf
        0x11223344 (byteOff + i)
      = [0x11, 0x22, 0x33, 0x44].getD i 0 := by
  have hsc : is_scalar (8 * byteOff) 32 = true := by
    simp [is_scalar, Nat.mul_mod_right]
  have hdiv : 8 * byteOff / 8 = byteOff := by omega
  have hle : byteOff ≤ byteOff + i := by omega
  have hlt : byteOff + i < byteOff + 4 := by omega
  constructor
  · simp only [set_impl_int, hsc, if_true]
    rw [hdiv, store_pod_byte hostLE buf _ hle hlt]
    cases hostLE with
    | true =>
      simp only [need_bswap, Bool.not_true, Bool.false_eq_true, if_false, if_true]
      rw [show byteOff + i - byteOff = i by omega]
      interval_cases i <;> decide
    | false =>
      simp only [need_bswap, Bool.not_false, if_true, Bool.false_eq_true, if_false]
      rw [show byteOff + i - byteOff = i by omega]
      interval_cases i <;> decide
  · simp only [set_impl_int, hsc, if_true]
    rw [hdiv, store_pod_byte hostLE buf _ hle hlt]
    cases hostLE with
    | true =>
      simp only [need_bswap, if_true]
      rw [show byteOff + i - byteOff = i by omega]
      interval_cases i <;> decide
    | false =>
      simp only [need_bswap, Bool.false_eq_true, if_false]
      rw [show byteOff + i - byteOff = i by omega]
      interval_cases i <;> decide

theorem c6_endian_golden_vectors_witness :
    (0 < 4) ∧
    set_impl_int true ⟨32, false, Endian.little⟩ (8 * 5) (fun _ => 0)
        0x11223344 (5 + 0) = 0x44 ∧
    set_impl_int true ⟨32, false, Endian.big⟩ (8 * 5) (fun _ => 0)
        0x11223344 (5 + 0) = 0x11 := by
  have h := c6_endian_golden_vectors true (fun _ => 0) 5 0 (by norm_num)
  exact ⟨by norm_num, h.1, h.2⟩

/-! ## Layout (`mad::packet<Fields...>`) -/

/-- `mad::field_kind`. -/
inductive FieldKind
  | int_bits
  | bytes
  | pad
  | subpacket
deriving DecidableEq, Repr

/-- The compile-time data of one field (`int_field` / `bytes_field` /
`pad_bits` / `subpacket_field`).  For a `subpacket` field, `bits` stands for
the nested packet's `total_bits`; for a `bytes` field it is `N * 8`. -/
structure FieldDesc where
  kind : FieldKind
  has_name : Bool
  name : String
  bits : Nat
  signed : Bool := false
  endian : Endian := Endian.native
deriving DecidableEq, Repr

/-- `packet::offsets_bits`: the consteval fold
`((offs[i++] = acc, acc += Fields::bits), ...)` — state is the list built so
far plus the running accumulator. -/
def offsets_bits (fields : List FieldDesc) : List Nat :=
  (fields.foldl (fun st f => (st.1 ++ [st.2], st.2 + f.bits))
    (([] : List Nat), 0)).1

/-- `packet::total_bits = (0ull + ... + Fields::bits)`. -/
def total_bits (fields : List FieldDesc) : Nat :=
  fields.foldl (fun acc f => acc + f.bits) 0

/-- `packet::total_bytes = (total_bits + 7) >> 3`. -/
def total_bytes (fields : List FieldDesc) : Nat := (total_bits fields + 7) / 8

/-- Specification-side offsets: the explicit exclusive prefix sums. -/
def offsetsSpec (a : Nat) : List FieldDesc → List Nat
  | [] => []
  | f :: fs => a :: offsetsSpec (a + f.bits) fs

theorem offsets_fold (fields : List FieldDesc) (acc : List Nat) (a : Nat) :
    (fields.foldl (fun st f => (st.1 ++ [st.2], st.2 + f.bits)) (acc, a)).1
      = acc ++ offsetsSpec a fields := by
  induction fields generalizing acc a with
  | nil => simp [offsetsSpec]
  | cons f fs ih =>
    simp only [List.foldl_cons, offsetsSpec, ih, List.append_assoc,
      List.singleton_append]

theorem offsets_bits_eq (fields : List FieldDesc) :
    offsets_bits fields = offsetsSpec 0 fields := by
  simpa [offsets_bits] using offsets_fold fields [] 0

theorem offsetsSpec_getD (a : Nat) (fields : List FieldDesc) {i : Nat}
    (h : i < fields.length) :
    (offsetsSpec a fields).getD i 0
      = a + ((fields.take i).map (·.bits)).sum := by
  induction fields generalizing a i with
  | nil => simp at h
  | cons f fs ih =>
    cases i with
    | zero => simp [offsetsSpec]
    | succ i =>
      simp only [offsetsSpec, List.getD_cons_succ, List.take_succ_cons,
        List.map_cons, List.sum_cons]
      rw [ih (a + f.bits) (by simpa using h)]
      ring

theorem total_bits_fold (fields : List FieldDesc) (a : Nat) :
    fields.foldl (fun acc f => acc + f.bits) a
      = a + (fields.map (·.bits)).sum := by
  induction fields generalizing a with
  | nil => simp
  | cons f fs ih =>
    simp only [List.foldl_cons, List.map_cons, List.sum_cons, ih]
    ring

/-- **C8** — The derived bit offset of field `i` is the exclusive prefix sum
of the widths of fields `0..i-1`, `total_bits` is the sum of all field
widths, and `total_bytes` is the least byte count covering `total_bits`
(i.e. `ceil(total_bits / 8)`). -/
theorem c8_layout_prefix_sums (fields : List FieldDesc) (i : Nat)
    (h : i < fields.length) :
    (offsets_bits fields).getD i 0 = ((fields.take i).map (·.bits)).sum ∧
    total_bits fields = (fields.map (·.bits)).sum ∧
    total_bits fields ≤ 8 * total_bytes fields ∧
    8 * total_bytes fields < total_bits fields + 8 := by
  refine ⟨?_, ?_, ?_, ?_⟩
  · rw [offsets_bits_eq, offsetsSpec_getD 0 fields h, Nat.zero_add]
  · exact total_bits_fold fields 0 |>.trans (by rw [Nat.zero_add])
  · simp only [total_bytes]; omega
  · simp only [total_bytes]; omega

theorem c8_layout_prefix_sums_witness :
    (2 < 3) ∧
    (offsets_bits [⟨FieldKind.int_bits, true, "a", 4, false, Endian.native⟩,
        ⟨FieldKind.pad, false, "", 4, false, Endian.native⟩,
        ⟨FieldKind.int_bits, true, "b", 16, false, Endian.native⟩]).getD 2 0 = 8 ∧
    total_bits [⟨FieldKind.int_bits, true, "a", 4, false, Endian.native⟩,
        ⟨FieldKind.pad, false, "", 4, false, Endian.native⟩,
        ⟨FieldKind.int_bits, true, "b", 16, false, Endian.native⟩] = 24 ∧
    total_bytes [⟨FieldKind.int_bits, true, "a", 4, false, Endian.native⟩,
        ⟨FieldKind.pad, false, "", 4, false, Endian.native⟩,
        ⟨FieldKind.int_bits, true, "b", 16, false, Endian.native⟩] = 3 := by
  have h := c8_layout_prefix_sums [⟨FieldKind.int_bits, true, "a", 4, false, Endian.native⟩,
    ⟨FieldKind.pad, false, "", 4, false, Endian.native⟩,
    ⟨FieldKind.int_bits, true, "b", 16, false, Endian.native⟩] 2 (by norm_num)
  refine ⟨by norm_num, ?_, by decide, by decide⟩
  rw [h.1]
  decide

/-! ## Build-time validation (`packet` static asserts) -/

/-- `detail::count_name<Name, Fields...>`. -/
def count_name (nm : String) : List FieldDesc → Nat
  | [] => 0
  | f :: rest =>
    (if f.has_name && f.name == nm then 1 else 0) + count_name nm rest

/-- `detail::all_unique_names<Fields...>`:
`(!F::has_name || count_name<F::name, Rest...> == 0) && ...`. -/
def all_unique_names : List FieldDesc → Bool
  | [] => true
  | f :: rest =>
    (!f.has_name || count_name f.name rest == 0) && all_unique_names rest

/-- The per-field `static_assert`s: `int_field` requires `1 <= Bits <= 64`
and `Bits % 8 == 0 || is_native_endian<EndianTag>`; `pad_bits` requires
`Bits >= 1`; `bytes_field` and `subpacket_field` assert nothing. -/
def field_ok (hostLE : Bool) (f : FieldDesc) : Bool :=
  match f.kind with
  | .int_bits => (decide (1 ≤ f.bits) && decide (f.bits ≤ 64)) &&
      (f.bits % 8 == 0 || is_native_endian hostLE f.endian)
  | .pad => decide (1 ≤ f.bits)
  | .bytes => true
  | .subpacket => true

/-- Everything `mad::packet<Fields...>` checks at type formation: the
per-field `static_assert`s and the packet-level
`static_assert(all_unique_names<Fields...>)`.  `packet::validate()` is also
asserted, but its loop body is empty and it always returns `true`, so it
contributes no checks. -/
def packet_ok (hostLE : Bool) (fields : List FieldDesc) : Bool :=
  fields.all (field_ok hostLE) && all_unique_names fields

/-- **C3** (failing input) — the packet of
`tests/layout/reject_misaligned_bytes_field_compile_fail.cpp`,
`mad::packet<mad::u1<"b0">, mad::bytes<"payload", 4>>`: its ByteSpan field
starts at bit offset 1 (not byte-aligned), yet packet formation succeeds on
either host byte order, because `validate()` performs no checks.  The
build-time rejection the claim (and the repository's own compile-fail test)
demands does not happen. -/
theorem c3_misaligned_bytes_accepted :
    packet_ok true [⟨FieldKind.int_bits, true, "b0", 1, false, Endian.native⟩,
        ⟨FieldKind.bytes, true, "payload", 32, false, Endian.native⟩] = true ∧
    packet_ok false [⟨FieldKind.int_bits, true, "b0", 1, false, Endian.native⟩,
        ⟨FieldKind.bytes, true, "payload", 32, false, Endian.native⟩] = true ∧
    (offsets_bits [⟨FieldKind.int_bits, true, "b0", 1, false, Endian.native⟩,
        ⟨FieldKind.bytes, true, "payload", 32, false, Endian.native⟩]).getD 1 0
      % 8 = 1 := by
  refine ⟨by decide, by decide, by decide⟩

/-! ## MMIO engine memory semantics (`detail::vset_impl` and helpers) -/

theorem readBytes_congr' {n : Nat} {p1 p2 : Nat} {buf1 buf2 : Nat → Nat}
    (h : ∀ j, j < n → buf1 (p1 + j) % 256 = buf2 (p2 + j) % 256) :
    readBytes n buf1 p1 = readBytes n buf2 p2 := by
  induction n generalizing p1 p2 with
  | zero => rfl
  | succ n ih =>
    simp only [readBytes, List.cons.injEq]
    refine ⟨?_, ?_⟩
    · have h0 := h 0 (by omega)
      simpa using h0
    · exact ih fun j hj => by
        have := h (j + 1) (by omega)
        simpa [show ∀ q : Nat, q + (j + 1) = q + 1 + j from fun q => by ring]
          using this

theorem loadW_congr' {n : Nat} {p1 p2 : Nat} {buf1 buf2 : Nat → Nat}
    (h : ∀ j, j < n → buf1 (p1 + j) % 256 = buf2 (p2 + j) % 256) :
    loadW n buf1 p1 = loadW n buf2 p2 := by
  simp only [loadW]
  rw [readBytes_congr' h]

/-- `detail::mmio_write_bits_le<BitOffset, BitCount>`: load the byte window
into a local `tmp` array with volatile byte loads, run
`write_bits_le<W::shift, BitCount>` on `tmp`, and store the window back with
volatile byte stores. -/
def mmio_write_bits_le (bitOff bits : Nat) (buf : Nat → Nat) (value : Nat) :
    Nat → Nat :=
  let byte := bitOff / 8
  let need := needBytes bitOff bits
  let tmp : Nat → Nat := fun i => if i < need then buf (byte + i) % 256 else 0
  let tmp2 := write_bits_le (bitOff % 8) bits tmp value
  fun i => if byte ≤ i ∧ i < byte + need then tmp2 (i - byte) % 256 else buf i

theorem needBytes_mod (bitOff bits : Nat) :
    needBytes (bitOff % 8) bits = needBytes bitOff bits := by
  simp only [needBytes, Nat.mod_mod_of_dvd _ (dvd_refl 8)]

/-- The volatile copy-out/copy-in of `mmio_write_bits_le` computes exactly
`write_bits_le` on the underlying memory. -/
theorem mmio_write_bits_le_eq (bitOff bits value : Nat) (buf : Nat → Nat)
    (h1 : 1 ≤ bits) (h64 : bits ≤ 64) :
    mmio_write_bits_le bitOff bits buf value
      = write_bits_le bitOff bits buf value := by
  have hmod8 : bitOff % 8 % 8 = bitOff % 8 := Nat.mod_mod_of_dvd _ (dvd_refl 8)
  have hdiv8 : bitOff % 8 / 8 = 0 := by omega
  funext i
  simp only [mmio_write_bits_le]
  set byte := bitOff / 8
  set need := needBytes bitOff bits with hneed
  set tmp : Nat → Nat := fun i => if i < need then buf (byte + i) % 256 else 0
    with htmp
  by_cases hin : byte ≤ i ∧ i < byte + need
  · rw [if_pos hin]
    have hload : loadW (needBytes (bitOff % 8) bits) tmp (bitOff % 8 / 8)
        = loadW need buf byte := by
      rw [needBytes_mod, hdiv8]
      apply loadW_congr'
      intro j hj
      simp only [htmp, Nat.zero_add, if_pos hj, Nat.mod_mod_of_dvd _ (dvd_refl 256)]
    rw [write_bits_le_eq tmp value h1 h64, hload, hmod8,
      write_bits_le_eq buf value h1 h64, needBytes_mod, hdiv8]
    rw [storeW_inside (by omega) (by omega : i - byte < 0 + need),
      storeW_inside hin.1 hin.2]
    rw [Nat.mod_mod_of_dvd _ (dvd_refl 256)]
    rw [show i - byte - 0 = i - byte by omega]
  · rw [if_neg hin]
    rw [write_bits_le_outside buf h1 h64 (by omega)]

theorem write_bits_le_mod (bitOff bits v : Nat) (buf : Nat → Nat)
    (h1 : 1 ≤ bits) (h64 : bits ≤ 64) :
    write_bits_le bitOff bits buf (v % 2 ^ bits)
      = write_bits_le bitOff bits buf v := by
  rw [write_bits_le_eq _ _ h1 h64, write_bits_le_eq _ _ h1 h64,
    Nat.mod_mod_of_dvd _ (dvd_refl _)]

theorem byte_of_testBit (x a k : Nat) (hk : k < 8) :
    Nat.testBit (x / 2 ^ (8 * a) % 256) k = Nat.testBit x (8 * a + k) := by
  rw [show (256:Nat) = 2 ^ 8 by norm_num, Nat.testBit_mod_two_pow, testBit_div_pow]
  simp [hk]

theorem byte_testBit_high {x k : Nat} (hx : x < 256) (hk : 8 ≤ k) :
    Nat.testBit x k = false :=
  Nat.testBit_lt_two_pow (lt_of_lt_of_le hx (by
    calc (256:Nat) = 2 ^ 8 := by norm_num
      _ ≤ 2 ^ k := Nat.pow_le_pow_right (by norm_num) hk))

/-- `detail::vset_impl` for an Integer field over volatile memory — the
memory-value semantics (barriers and transaction granularity are modelled
separately as event traces).  The scalar path stores like `set_impl`; a
bitfield fully inside one bus word does a one-word RMW in LE-stream
numbering (`w = (w & ~m) | (value << bit_in_word)`); otherwise
`mmio_write_bits_le` runs. -/
def vset_impl_int (hostLE : Bool) (f : IntFieldSpec) (bitOff busBytes : Nat)
    (buf : Nat → Nat) (v : Nat) : Nat → Nat :=
  if is_scalar bitOff f.bits then
    let n := f.bits / 8
    let x0 := v % 2 ^ f.bits
    let x := if need_bswap hostLE f.endian then bswapN n x0 else x0
    store_pod hostLE n buf (bitOff / 8) x
  else
    let busBits := busBytes * 8
    let wordIdx := bitOff / busBits
    let bitInWord := bitOff - wordIdx * busBits
    let value := v % 2 ^ f.bits
    if bitInWord + f.bits ≤ busBits ∧ busBits ≤ 64 ∧ busBits % 8 = 0 then
      let wp := wordIdx * busBytes
      let w := loadW busBytes buf wp
      let w2 := w &&& (2 ^ 64 - 1 - mask64 f.bits * 2 ^ bitInWord) |||
        value * 2 ^ bitInWord
      storeW busBytes buf wp w2
    else
      mmio_write_bits_le bitOff f.bits buf value

/-- The one-bus-word RMW of `vset_impl` writes exactly the bytes the plain
byte-window engine would write: on well-formed memory it equals
`write_bits_le`. -/
theorem word_rmw_eq_window (bitOff bits busBytes v : Nat) (buf : Nat → Nat)
    (h1 : 1 ≤ bits) (h64 : bits ≤ 64) (hbusp : 0 < busBytes)
    (hbus8 : busBytes ≤ 8)
    (hfit : bitOff % (busBytes * 8) + bits ≤ busBytes * 8) (hwf : Wf buf) :
    storeW busBytes buf (bitOff / (busBytes * 8) * busBytes)
      ((loadW busBytes buf (bitOff / (busBytes * 8) * busBytes)) &&&
          (2 ^ 64 - 1 - mask64 bits * 2 ^ (bitOff % (busBytes * 8))) |||
        v % 2 ^ bits * 2 ^ (bitOff % (busBytes * 8)))
      = write_bits_le bitOff bits buf v := by
  set W := busBytes with hWdef
  set wp := bitOff / (W * 8) * W with hwp
  set r := bitOff % (W * 8) with hrdef
  have hdm := Nat.div_add_mod bitOff (W * 8)
  have hmc : W * 8 * (bitOff / (W * 8)) = 8 * wp := by rw [hwp]; ring
  have hb0 : bitOff = 8 * wp + r := by omega
  have hrlt : r < W * 8 := Nat.mod_lt _ (by omega)
  set w := loadW W buf wp with hw
  have hwlt : w < 2 ^ (8 * W) := loadW_lt _ _ _
  have hw64 : w < 2 ^ 64 :=
    lt_of_lt_of_le hwlt (Nat.pow_le_pow_right (by norm_num) (by omega))
  have hv : v % 2 ^ bits < 2 ^ bits := Nat.mod_lt _ (by positivity)
  have hbridge : w &&& (2 ^ 64 - 1 - mask64 bits * 2 ^ r) ||| v % 2 ^ bits * 2 ^ r
      = clear_or w r bits (v % 2 ^ bits) := by
    rw [mask64_eq h64, mask_mul,
      and_not_window hw64 (by omega) (by omega),
      lor_window (Nat.mod_lt _ (by positivity))
        (by rw [Nat.add_sub_cancel_left]; exact hv) (by omega)]
    rfl
  rw [hbridge, write_bits_le_eq buf v h1 h64]
  funext i
  set byte := bitOff / 8 with hbyte
  set s := bitOff % 8 with hs
  set need := needBytes bitOff bits with hneedd
  have hneed8 : need = (s + bits + 7) / 8 := rfl
  have hneed_bound : s + bits ≤ 8 * need := needBytes_ge _ _
  have hbyte_eq : byte = wp + r / 8 := by omega
  have hs_eq : s = r % 8 := by omega
  have hneed_le : byte + need ≤ wp + W := by omega
  have hraw : loadW need buf byte < 2 ^ (8 * need) := loadW_lt _ _ _
  by_cases hiw : wp ≤ i ∧ i < wp + W
  · by_cases hiwin : byte ≤ i ∧ i < byte + need
    · rw [storeW_inside hiw.1 hiw.2, storeW_inside hiwin.1 hiwin.2]
      apply Nat.eq_of_testBit_eq
      intro k
      by_cases hk : k < 8
      · rw [byte_of_testBit _ _ _ hk, byte_of_testBit _ _ _ hk,
          clear_or_testBit _ _ _ hv, clear_or_testBit _ _ _ hv]
        set tw := 8 * (i - wp) + k with htw
        set tr := 8 * (i - byte) + k with htr
        by_cases hc1 : tw < r
        · rw [if_pos hc1, if_pos (show tr < s by omega),
            loadW_testBit buf wp (by omega), loadW_testBit buf byte (by omega),
            show wp + tw / 8 = byte + tr / 8 by omega,
            show tw % 8 = tr % 8 by omega]
        · by_cases hc2 : tw < r + bits
          · rw [if_neg hc1, if_pos hc2, if_neg (show ¬ tr < s by omega),
              if_pos (show tr < s + bits by omega),
              show tw - r = tr - s by omega]
          · rw [if_neg hc1, if_neg hc2, if_neg (show ¬ tr < s by omega),
              if_neg (show ¬ tr < s + bits by omega),
              loadW_testBit buf wp (by omega), loadW_testBit buf byte (by omega),
              show wp + tw / 8 = byte + tr / 8 by omega,
              show tw % 8 = tr % 8 by omega]
      · rw [byte_testBit_high (Nat.mod_lt _ (by norm_num)) (by omega),
          byte_testBit_high (Nat.mod_lt _ (by norm_num)) (by omega)]
    · rw [storeW_inside hiw.1 hiw.2, storeW_outside (by omega)]
      apply Nat.eq_of_testBit_eq
      intro k
      by_cases hk : k < 8
      · rw [byte_of_testBit _ _ _ hk, clear_or_testBit _ _ _ hv]
        set tw := 8 * (i - wp) + k with htw
        have hcase : tw < r ∨ r + bits ≤ tw := by omega
        rcases hcase with hc | hc
        · rw [if_pos hc, loadW_testBit buf wp (by omega),
            show wp + tw / 8 = i by omega, show tw % 8 = k by omega]
        · rw [if_neg (by omega), if_neg (by omega),
            loadW_testBit buf wp (by omega),
            show wp + tw / 8 = i by omega, show tw % 8 = k by omega]
      · rw [byte_testBit_high (Nat.mod_lt _ (by norm_num)) (by omega),
          byte_testBit_high (hwf i) (by omega)]
  · rw [storeW_outside (by omega), storeW_outside (by omega)]

/-- Both bitfield branches of `vset_impl` compute exactly the byte-window
write of the accessor engine. -/
theorem vset_int_eq_window (hostLE : Bool) (f : IntFieldSpec)
    (bitOff busBytes : Nat) (buf : Nat → Nat) (v : Nat)
    (hns : is_scalar bitOff f.bits = false) (h1 : 1 ≤ f.bits)
    (h64 : f.bits ≤ 64) (hbusp : 0 < busBytes) (hbus8 : busBytes ≤ 8)
    (hwf : Wf buf) :
    vset_impl_int hostLE f bitOff busBytes buf v
      = write_bits_le bitOff f.bits buf v := by
  have hbiw : bitOff - bitOff / (busBytes * 8) * (busBytes * 8)
      = bitOff % (busBytes * 8) := by
    have hdm := Nat.div_add_mod bitOff (busBytes * 8)
    have hc : bitOff / (busBytes * 8) * (busBytes * 8)
        = busBytes * 8 * (bitOff / (busBytes * 8)) := by ring
    omega
  simp only [vset_impl_int, hns, Bool.false_eq_true, if_false]
  rw [hbiw]
  by_cases hfit : bitOff % (busBytes * 8) + f.bits ≤ busBytes * 8
  · rw [if_pos ⟨hfit, by omega, Nat.mul_mod_left busBytes 8⟩]
    exact word_rmw_eq_window bitOff f.bits busBytes v buf h1 h64 hbusp hbus8
      hfit hwf
  · rw [if_neg (fun h => hfit h.1)]
    rw [mmio_write_bits_le_eq _ _ _ _ h1 h64, write_bits_le_mod _ _ _ _ h1 h64]

/-- **C5** — An MMIO `set` of a bitfield that lies fully inside one bus word
performs a single bus-word read-modify-write leaving every bit of memory
outside the field unchanged (and touching no byte outside that word); a
bitfield spanning bus words falls back to the byte-window RMW algorithm
(`mmio_write_bits_le`, which equals the accessor engine's `write_bits_le`),
likewise preserving all non-field bits.  In both cases the field reads back
as the stored value. -/
theorem c5_mmio_bitfield_rmw (hostLE : Bool) (f : IntFieldSpec)
    (bitOff busBytes : Nat) (buf : Nat → Nat) (v : Nat)
    (hns : is_scalar bitOff f.bits = false) (h1 : 1 ≤ f.bits)
    (h64 : f.bits ≤ 64)
    (hbus : busBytes = 1 ∨ busBytes = 2 ∨ busBytes = 4 ∨ busBytes = 8)
    (hwf : Wf buf) :
    read_bits_le bitOff f.bits (vset_impl_int hostLE f bitOff busBytes buf v)
        = v % 2 ^ f.bits ∧
    (∀ i k, k < 8 → (8 * i + k < bitOff ∨ bitOff + f.bits ≤ 8 * i + k) →
      Nat.testBit (vset_impl_int hostLE f bitOff busBytes buf v i) k
        = Nat.testBit (buf i) k) ∧
    (bitOff % (busBytes * 8) + f.bits ≤ busBytes * 8 →
      ∀ i, i < bitOff / (busBytes * 8) * busBytes ∨
          bitOff / (busBytes * 8) * busBytes + busBytes ≤ i →
        vset_impl_int hostLE f bitOff busBytes buf v i = buf i) ∧
    (¬(bitOff % (busBytes * 8) + f.bits ≤ busBytes * 8) →
      vset_impl_int hostLE f bitOff busBytes buf v
          = mmio_write_bits_le bitOff f.bits buf (v % 2 ^ f.bits) ∧
      mmio_write_bits_le bitOff f.bits buf (v % 2 ^ f.bits)
        = write_bits_le bitOff f.bits buf v) := by
  have hbusp : 0 < busBytes := by rcases hbus with h | h | h | h <;> omega
  have hbus8 : busBytes ≤ 8 := by rcases hbus with h | h | h | h <;> omega
  have heq := vset_int_eq_window hostLE f bitOff busBytes buf v hns h1 h64
    hbusp hbus8 hwf
  refine ⟨?_, ?_, ?_, ?_⟩
  · rw [heq]
    exact read_write_bits_le _ _ _ _ h1 h64
  · intro i k hk hout
    rw [heq]
    exact write_bits_le_preserves buf h1 h64 hk hout
  · intro hfit i hi
    rw [heq]
    apply write_bits_le_outside buf h1 h64
    have hdm := Nat.div_add_mod bitOff (busBytes * 8)
    have hc : bitOff / (busBytes * 8) * (busBytes * 8)
        = busBytes * 8 * (bitOff / (busBytes * 8)) := by ring
    have hwpb : bitOff / (busBytes * 8) * busBytes * 8
        = busBytes * 8 * (bitOff / (busBytes * 8)) := by ring
    have hneed8 : needBytes bitOff f.bits = (bitOff % 8 + f.bits + 7) / 8 := rfl
    omega
  · intro hfit
    have hmmio : mmio_write_bits_le bitOff f.bits buf (v % 2 ^ f.bits)
        = write_bits_le bitOff f.bits buf v := by
      rw [mmio_write_bits_le_eq _ _ _ _ h1 h64, write_bits_le_mod _ _ _ _ h1 h64]
    exact ⟨heq.trans hmmio.symm, hmmio⟩

theorem c5_mmio_bitfield_rmw_witness :
    (is_scalar 28 8 = false) ∧
    read_bits_le 28 8 (vset_impl_int true ⟨8, false, Endian.native⟩ 28 4
      (fun _ => 171) 90) = 90 := by
  have h := c5_mmio_bitfield_rmw true ⟨8, false, Endian.native⟩ 28 4
    (fun _ => 171) 90 (by decide) (by norm_num) (by norm_num)
    (by norm_num) (fun i => by norm_num)
  refine ⟨by decide, ?_⟩
  rw [h.1]
  decide

/-! ## MMIO transaction and barrier traces

The memory-value semantics above ignores transaction granularity and the
`MAD_MMIO_BARRIER()` hook.  The traces below record, in program order, the
volatile transactions and hook invocations each accessor performs.  The
runtime pointer-alignment test of `mmio_load_pod` / `mmio_store_pod` /
`mmio_load_bus_host` (typed volatile access vs. byte-wise fallback) is
abstracted as the oracle parameter `typed`. -/

/-- One observable MMIO action. -/
inductive MmioEv
  | barrier
  | loadB (addr width : Nat)
  | storeB (addr width : Nat)
deriving DecidableEq, Repr

def isBarrier : MmioEv → Bool
  | .barrier => true
  | _ => false

def isStore : MmioEv → Bool
  | .storeB _ _ => true
  | _ => false

/-- `n` single-byte volatile loads at increasing addresses
(`mmio_load_u64_le_n`, the byte loops of `mmio_read/write_bits_le`). -/
def byte_loads (p n : Nat) : List MmioEv :=
  (List.range n).map fun i => .loadB (p + i) 1

def byte_stores (p n : Nat) : List MmioEv :=
  (List.range n).map fun i => .storeB (p + i) 1

/-- `mmio_load_pod<U, BaseAlign>`: one typed volatile load when permitted,
else the byte-wise fallback. -/
def mmio_load_pod_ev (typed : Bool) (p n : Nat) : List MmioEv :=
  if typed then [.loadB p n] else byte_loads p n

def mmio_store_pod_ev (typed : Bool) (p n : Nat) : List MmioEv :=
  if typed then [.storeB p n] else byte_stores p n

/-- `mmio_read_bits_le`: volatile byte loads of the window. -/
def mmio_read_bits_le_ev (bitOff bits : Nat) : List MmioEv :=
  byte_loads (bitOff / 8) (needBytes bitOff bits)

/-- `mmio_write_bits_le`: volatile byte loads of the window, then volatile
byte stores of the window. -/
def mmio_write_bits_le_ev (bitOff bits : Nat) : List MmioEv :=
  byte_loads (bitOff / 8) (needBytes bitOff bits) ++
    byte_stores (bitOff / 8) (needBytes bitOff bits)

/-- The trace of `detail::vget_impl` for an Integer field. -/
def vget_impl_ev (typed : Bool) (f : IntFieldSpec) (bitOff busBytes : Nat) :
    List MmioEv :=
  if is_scalar bitOff f.bits then
    mmio_load_pod_ev typed (bitOff / 8) (f.bits / 8)
  else
    if bitOff - bitOff / (busBytes * 8) * (busBytes * 8) + f.bits ≤ busBytes * 8
        ∧ busBytes * 8 ≤ 64 ∧ busBytes * 8 % 8 = 0 then
      byte_loads (bitOff / (busBytes * 8) * busBytes) busBytes
    else
      mmio_read_bits_le_ev bitOff f.bits

/-- The trace of `detail::vset_impl` for an Integer field: every path brackets
its stores with two `MAD_MMIO_BARRIER()` invocations. -/
def vset_impl_ev (typed : Bool) (f : IntFieldSpec) (bitOff busBytes : Nat) :
    List MmioEv :=
  if is_scalar bitOff f.bits then
    [.barrier] ++ mmio_store_pod_ev typed (bitOff / 8) (f.bits / 8) ++
      [.barrier]
  else
    if bitOff - bitOff / (busBytes * 8) * (busBytes * 8) + f.bits ≤ busBytes * 8
        ∧ busBytes * 8 ≤ 64 ∧ busBytes * 8 % 8 = 0 then
      byte_loads (bitOff / (busBytes * 8) * busBytes) busBytes ++
        ([.barrier] ++ byte_stores (bitOff / (busBytes * 8) * busBytes) busBytes
          ++ [.barrier])
    else
      [.barrier] ++ mmio_write_bits_le_ev bitOff f.bits ++ [.barrier]

/-! ## xview width policies (`mad::reg`, `detail2`) -/

/-- `reg::width_policy`. -/
inductive WidthPolicy
  | native
  | enforce_bus
  | prefer_bus
  | minimal_ok
deriving DecidableEq, Repr

/-- `reg::mask_for_bytes`. -/
def mask_for_bytes (b : Nat) : Nat :=
  if b = 1 then 1 else if b = 2 then 2 else if b = 4 then 4
  else if b = 8 then 8 else 0

/-- `reg::detail2::min_width_ge`: the first of 1/2/4/8 that is `≥ min_bytes`,
`≤ max_bytes` and enabled in the capability mask, else 0. -/
def min_width_ge (m minB maxB : Nat) : Nat :=
  if minB ≤ 1 ∧ 1 ≤ maxB ∧ m &&& 1 ≠ 0 then 1
  else if minB ≤ 2 ∧ 2 ≤ maxB ∧ m &&& 2 ≠ 0 then 2
  else if minB ≤ 4 ∧ 4 ≤ maxB ∧ m &&& 4 ≠ 0 then 4
  else if minB ≤ 8 ∧ 8 ≤ maxB ∧ m &&& 8 ≠ 0 then 8
  else 0

/-- `reg::detail2::choose_width<WP>`. -/
def choose_width (wp : WidthPolicy) (region off busBytes mask : Nat) : Nat :=
  match wp with
  | .enforce_bus => if mask &&& mask_for_bytes busBytes ≠ 0 then busBytes else 0
  | .native =>
    if mask &&& mask_for_bytes region ≠ 0 then region
    else min_width_ge mask region busBytes
  | .minimal_ok => min_width_ge mask region busBytes
  | .prefer_bus =>
    if region ≤ busBytes ∧ mask &&& mask_for_bytes busBytes ≠ 0 then busBytes
    else if mask &&& mask_for_bytes region ≠ 0 then region
    else min_width_ge mask region busBytes

/-- `mmio_load_bus_host` / `mmio_store_bus_host`: one bus-word transaction
(typed when permitted, else byte-wise over the bus word). -/
def bus_load_ev (typed : Bool) (p busBytes : Nat) : List MmioEv :=
  if typed then [.loadB p busBytes] else byte_loads p busBytes

def bus_store_ev (typed : Bool) (p busBytes : Nat) : List MmioEv :=
  if typed then [.storeB p busBytes] else byte_stores p busBytes

/-- The transaction sequence of
`reg::detail2::load_int_bytes_native<Bus, ..., N>` at byte offset `off`:
bus-word loads covering the field's bytes. -/
def load_int_bytes_native_ev (typed : Bool) (busBytes n off : Nat) :
    List MmioEv :=
  if n = busBytes then bus_load_ev typed off busBytes
  else if n < busBytes then
    bus_load_ev typed (off / busBytes * busBytes) busBytes ++
      (if off - off / busBytes * busBytes + n ≤ busBytes then []
       else bus_load_ev typed (off / busBytes * busBytes + busBytes) busBytes)
  else
    (List.range ((n + busBytes - 1) / busBytes)).flatMap fun wi =>
      bus_load_ev typed (off + wi * busBytes) busBytes

/-- The transaction sequence of `store_int_bytes_native<Bus, ..., N>`. -/
def store_int_bytes_native_ev (typed : Bool) (busBytes n off : Nat)
    (rmw : Bool) : List MmioEv :=
  if n = busBytes then bus_store_ev typed off busBytes
  else if n < busBytes then
    if off - off / busBytes * busBytes + n ≤ busBytes then
      (if rmw then bus_load_ev typed (off / busBytes * busBytes) busBytes
       else []) ++
        bus_store_ev typed (off / busBytes * busBytes) busBytes
    else
      (if rmw then bus_load_ev typed (off / busBytes * busBytes) busBytes ++
          bus_load_ev typed (off / busBytes * busBytes + busBytes) busBytes
       else []) ++
        bus_store_ev typed (off / busBytes * busBytes) busBytes ++
        bus_store_ev typed (off / busBytes * busBytes + busBytes) busBytes
  else
    (List.range ((n + busBytes - 1) / busBytes)).flatMap fun wi =>
      (if rmw ∧ ((if wi = (n + busBytes - 1) / busBytes - 1
            then n - wi * busBytes else busBytes) ≠ busBytes)
       then bus_load_ev typed (off + wi * busBytes) busBytes
       else []) ++
        bus_store_ev typed (off + wi * busBytes) busBytes

/-- The compile-time configuration of an xview (`reg::cfg`). -/
structure XCfg where
  busBytes : Nat
  width : WidthPolicy
  readMask : Nat
  writeMask : Nat

/-- The trace of `reg::detail2::xget_impl` for an Integer field. -/
def xget_impl_ev (typed : Bool) (cfg : XCfg) (f : IntFieldSpec)
    (bitOff : Nat) : List MmioEv :=
  if is_scalar bitOff f.bits then
    if cfg.width = WidthPolicy.native ∧
        choose_width cfg.width (f.bits / 8) (bitOff / 8) cfg.busBytes
          cfg.readMask = f.bits / 8 then
      mmio_load_pod_ev typed (bitOff / 8) (f.bits / 8)
    else
      load_int_bytes_native_ev typed cfg.busBytes (f.bits / 8) (bitOff / 8)
  else
    if bitOff - bitOff / (cfg.busBytes * 8) * (cfg.busBytes * 8) + f.bits ≤
        cfg.busBytes * 8 ∧ cfg.busBytes * 8 ≤ 64 ∧ cfg.busBytes * 8 % 8 = 0 then
      bus_load_ev typed (bitOff / (cfg.busBytes * 8) * cfg.busBytes) cfg.busBytes
    else
      mmio_read_bits_le_ev bitOff f.bits

/-- The trace of `reg::detail2::xset_impl` for an Integer field. -/
def xset_impl_ev (typed : Bool) (cfg : XCfg) (f : IntFieldSpec)
    (bitOff : Nat) : List MmioEv :=
  if is_scalar bitOff f.bits then
    if cfg.width = WidthPolicy.native ∧
        choose_width cfg.width (f.bits / 8) (bitOff / 8) cfg.busBytes
          cfg.writeMask = f.bits / 8 then
      [.barrier] ++ mmio_store_pod_ev typed (bitOff / 8) (f.bits / 8) ++
        [.barrier]
    else
      [.barrier] ++
        store_int_bytes_native_ev typed cfg.busBytes (f.bits / 8) (bitOff / 8)
          (if cfg.width = WidthPolicy.enforce_bus
           then f.bits / 8 != cfg.busBytes
           else decide ((choose_width cfg.width (f.bits / 8) (bitOff / 8)
                cfg.busBytes cfg.writeMask ≠ 0 ∧
              f.bits / 8 < choose_width cfg.width (f.bits / 8) (bitOff / 8)
                cfg.busBytes cfg.writeMask) ∨
              f.bits / 8 % cfg.busBytes ≠ 0)) ++
        [.barrier]
  else
    if bitOff - bitOff / (cfg.busBytes * 8) * (cfg.busBytes * 8) + f.bits ≤
        cfg.busBytes * 8 ∧ cfg.busBytes * 8 ≤ 64 ∧ cfg.busBytes * 8 % 8 = 0 then
      bus_load_ev typed (bitOff / (cfg.busBytes * 8) * cfg.busBytes)
          cfg.busBytes ++
        ([.barrier] ++
          bus_store_ev typed (bitOff / (cfg.busBytes * 8) * cfg.busBytes)
            cfg.busBytes ++ [.barrier])
    else
      [.barrier] ++ mmio_write_bits_le_ev bitOff f.bits ++ [.barrier]

/-! ## Trace properties -/

/-- A trace of pure load transactions: no barrier, no store. -/
def loadsOnly (l : List MmioEv) : Prop :=
  ∀ e ∈ l, isBarrier e = false ∧ isStore e = false

/-- A barrier-free trace. -/
def noBarrier (l : List MmioEv) : Prop := ∀ e ∈ l, isBarrier e = false

theorem noBarrier_nil : noBarrier [] := fun e he => absurd he (List.not_mem_nil e)

theorem noBarrier_append {l1 l2 : List MmioEv} (h1 : noBarrier l1)
    (h2 : noBarrier l2) : noBarrier (l1 ++ l2) := by
  intro e he
  rcases List.mem_append.mp he with h | h
  · exact h1 e h
  · exact h2 e h

theorem byte_loads_loadsOnly (p n : Nat) : loadsOnly (byte_loads p n) := by
  intro e he
  simp only [byte_loads, List.mem_map, List.mem_range] at he
  obtain ⟨i, _, rfl⟩ := he
  exact ⟨rfl, rfl⟩

theorem byte_stores_noBarrier (p n : Nat) : noBarrier (byte_stores p n) := by
  intro e he
  simp only [byte_stores, List.mem_map, List.mem_range] at he
  obtain ⟨i, _, rfl⟩ := he
  rfl

theorem bus_load_ev_loadsOnly (typed : Bool) (p b : Nat) :
    loadsOnly (bus_load_ev typed p b) := by
  unfold bus_load_ev
  split_ifs
  · intro e he
    simp only [List.mem_singleton] at he
    subst he
    exact ⟨rfl, rfl⟩
  · exact byte_loads_loadsOnly p b

theorem bus_store_ev_noBarrier (typed : Bool) (p b : Nat) :
    noBarrier (bus_store_ev typed p b) := by
  unfold bus_store_ev
  split_ifs
  · intro e he
    simp only [List.mem_singleton] at he
    subst he
    rfl
  · exact byte_stores_noBarrier p b

theorem mmio_load_pod_ev_loadsOnly (typed : Bool) (p n : Nat) :
    loadsOnly (mmio_load_pod_ev typed p n) := by
  unfold mmio_load_pod_ev
  split_ifs
  · intro e he
    simp only [List.mem_singleton] at he
    subst he
    exact ⟨rfl, rfl⟩
  · exact byte_loads_loadsOnly p n

theorem mmio_store_pod_ev_noBarrier (typed : Bool) (p n : Nat) :
    noBarrier (mmio_store_pod_ev typed p n) := by
  unfold mmio_store_pod_ev
  split_ifs
  · intro e he
    simp only [List.mem_singleton] at he
    subst he
    rfl
  · exact byte_stores_noBarrier p n

theorem loadsOnly_noBarrier {l : List MmioEv} (h : loadsOnly l) : noBarrier l :=
  fun e he => (h e he).1

theorem loadsOnly_append {l1 l2 : List MmioEv} (h1 : loadsOnly l1)
    (h2 : loadsOnly l2) : loadsOnly (l1 ++ l2) := by
  intro e he
  rcases List.mem_append.mp he with h | h
  · exact h1 e h
  · exact h2 e h

theorem loadsOnly_nil : loadsOnly [] := fun e he => absurd he (List.not_mem_nil e)

theorem load_int_bytes_native_ev_loadsOnly (typed : Bool) (b n off : Nat) :
    loadsOnly (load_int_bytes_native_ev typed b n off) := by
  intro e he
  unfold load_int_bytes_native_ev at he
  split_ifs at he with h1 h2 h3
  · exact bus_load_ev_loadsOnly _ _ _ e he
  · rcases List.mem_append.mp he with h | h
    · exact bus_load_ev_loadsOnly _ _ _ e h
    · exact absurd h (List.not_mem_nil e)
  · rcases List.mem_append.mp he with h | h
    · exact bus_load_ev_loadsOnly _ _ _ e h
    · exact bus_load_ev_loadsOnly _ _ _ e h
  · simp only [List.mem_flatMap, List.mem_range] at he
    obtain ⟨wi, _, hmem⟩ := he
    exact bus_load_ev_loadsOnly _ _ _ e hmem

theorem mmio_read_bits_le_ev_loadsOnly (bitOff bits : Nat) :
    loadsOnly (mmio_read_bits_le_ev bitOff bits) :=
  byte_loads_loadsOnly _ _

theorem mmio_write_bits_le_ev_noBarrier (bitOff bits : Nat) :
    noBarrier (mmio_write_bits_le_ev bitOff bits) :=
  noBarrier_append (loadsOnly_noBarrier (byte_loads_loadsOnly _ _))
    (byte_stores_noBarrier _ _)

theorem store_int_bytes_native_ev_noBarrier (typed : Bool) (b n off : Nat)
    (rmw : Bool) : noBarrier (store_int_bytes_native_ev typed b n off rmw) := by
  intro e he
  unfold store_int_bytes_native_ev at he
  split_ifs at he
  all_goals first
  | exact bus_store_ev_noBarrier _ _ _ e he
  | (rcases List.mem_append.mp he with h | h
     · first
       | exact loadsOnly_noBarrier (bus_load_ev_loadsOnly _ _ _) e h
       | exact absurd h (List.not_mem_nil e)
       | (rcases List.mem_append.mp h with h2 | h2
          · first
            | exact loadsOnly_noBarrier (bus_load_ev_loadsOnly _ _ _) e h2
            | exact absurd h2 (List.not_mem_nil e)
            | (rcases List.mem_append.mp h2 with h3 | h3
               · first
                 | exact loadsOnly_noBarrier (bus_load_ev_loadsOnly _ _ _) e h3
                 | exact absurd h3 (List.not_mem_nil e)
               · exact loadsOnly_noBarrier (bus_load_ev_loadsOnly _ _ _) e h3)
          · first
            | exact bus_store_ev_noBarrier _ _ _ e h2
            | exact loadsOnly_noBarrier (bus_load_ev_loadsOnly _ _ _) e h2)
     · exact bus_store_ev_noBarrier _ _ _ e h)
  | (simp only [List.mem_flatMap, List.mem_range] at he
     obtain ⟨wi, _, hmem⟩ := he
     rcases List.mem_append.mp hmem with h | h
     · (revert h
        split_ifs
        all_goals intro h
        all_goals first
        | exact loadsOnly_noBarrier (bus_load_ev_loadsOnly _ _ _) e h
        | exact absurd h (List.not_mem_nil e))
     · exact bus_store_ev_noBarrier _ _ _ e h)

/-- The store sequence is bracketed by exactly two hook invocations:
`pre ++ [barrier] ++ mid ++ [barrier]` where `pre` contains neither barriers
nor stores and `mid` contains no barrier; nothing follows the closing
barrier, so every store lies strictly between the two. -/
def bracketed (l : List MmioEv) : Prop :=
  ∃ pre mid, l = pre ++ MmioEv.barrier :: (mid ++ [MmioEv.barrier]) ∧
    loadsOnly pre ∧ noBarrier mid

theorem bracketed_simple (mid : List MmioEv) (hmid : noBarrier mid) :
    bracketed ([MmioEv.barrier] ++ mid ++ [MmioEv.barrier]) :=
  ⟨[], mid, by simp, loadsOnly_nil, hmid⟩

theorem bracketed_pre (pre mid : List MmioEv) (hpre : loadsOnly pre)
    (hmid : noBarrier mid) :
    bracketed (pre ++ ([MmioEv.barrier] ++ mid ++ [MmioEv.barrier])) :=
  ⟨pre, mid, by simp, hpre, hmid⟩

/-- **C7** — Every MMIO `set` (scalar store, one-word RMW, or fallback
byte-window, in both the plain reg view and the policy-driven xview) invokes
the barrier hook exactly twice, bracketing the store transactions: nothing
precedes the first barrier except load transactions, every store lies
between the two barriers, and nothing follows the second.  Every MMIO `get`
invokes the hook zero times. -/
theorem c7_barrier_bracketing (typed : Bool) (cfg : XCfg) (f : IntFieldSpec)
    (bitOff busBytes : Nat) :
    bracketed (vset_impl_ev typed f bitOff busBytes) ∧
    bracketed (xset_impl_ev typed cfg f bitOff) ∧
    (∀ e ∈ vget_impl_ev typed f bitOff busBytes, isBarrier e = false) ∧
    (∀ e ∈ xget_impl_ev typed cfg f bitOff, isBarrier e = false) := by
  refine ⟨?_, ?_, ?_, ?_⟩
  · unfold vset_impl_ev
    split_ifs with h1 h2
    · exact bracketed_simple _ (mmio_store_pod_ev_noBarrier _ _ _)
    · exact bracketed_pre _ _ (byte_loads_loadsOnly _ _)
        (byte_stores_noBarrier _ _)
    · exact bracketed_simple _ (mmio_write_bits_le_ev_noBarrier _ _)
  · unfold xset_impl_ev
    split_ifs with h1 h2 h3 h4
    · exact bracketed_simple _ (mmio_store_pod_ev_noBarrier _ _ _)
    · exact bracketed_simple _ (store_int_bytes_native_ev_noBarrier _ _ _ _ _)
    · exact bracketed_simple _ (store_int_bytes_native_ev_noBarrier _ _ _ _ _)
    · exact bracketed_pre _ _ (bus_load_ev_loadsOnly _ _ _)
        (bus_store_ev_noBarrier _ _ _)
    · exact bracketed_simple _ (mmio_write_bits_le_ev_noBarrier _ _)
  · unfold vget_impl_ev
    split_ifs with h1 h2
    · exact fun e he => (mmio_load_pod_ev_loadsOnly _ _ _ e he).1
    · exact fun e he => (byte_loads_loadsOnly _ _ e he).1
    · exact fun e he => (mmio_read_bits_le_ev_loadsOnly _ _ e he).1
  · unfold xget_impl_ev
    split_ifs with h1 h2 h3
    · exact fun e he => (mmio_load_pod_ev_loadsOnly _ _ _ e he).1
    · exact fun e he => (load_int_bytes_native_ev_loadsOnly _ _ _ _ e he).1
    · exact fun e he => (bus_load_ev_loadsOnly _ _ _ e he).1
    · exact fun e he => (mmio_read_bits_le_ev_loadsOnly _ _ e he).1

/-! ## C4: MinimalOk width selection vs. actual transaction width -/

/-- A legal transaction width for an `region`-byte field under capability
mask `mask` on a `busBytes`-byte bus: one of the four supported widths,
at least the field size, at most the bus word, and enabled in the mask
(`reg::mask_for_bytes`). -/
def legal_width (region busBytes mask w : Nat) : Prop :=
  (w = 1 ∨ w = 2 ∨ w = 4 ∨ w = 8) ∧ region ≤ w ∧ w ≤ busBytes ∧
    mask &&& mask_for_bytes w ≠ 0

/-- **C4 (counterexample)** — Under `MinimalOk` with a 4-byte bus and all
widths capable (mask 15), `choose_width` does pick the minimal legal width 1
for a 1-byte field, yet the actual `get` transaction sequence is a single
4-byte bus-word load, not a 1-byte one: the non-native path always transacts
at bus-word width, so the claim "every MMIO get and set … performs its
memory transactions at the smallest width" is false. -/
theorem c4_minimal_ok_uses_bus_word :
    choose_width WidthPolicy.minimal_ok 1 0 4 15 = 1 ∧
    xget_impl_ev true ⟨4, WidthPolicy.minimal_ok, 15, 15⟩
        ⟨8, false, Endian.native⟩ 0 = [MmioEv.loadB 0 4] := by
  decide

/-- **C4 (amended)** — Under the `MinimalOk` policy, `choose_width` selects
the smallest legal width: whenever some width `w` is legal (a supported
width `≥` the field's byte size, `≤` the bus word, enabled in the
capability mask), the chosen width is itself legal and is `≤ w`.  (The
transactions themselves still run at bus-word width on the non-native
path; only the width *selection* is minimal.) -/
theorem c4_minimal_ok_selects_min (region off busBytes mask w : Nat)
    (hw : legal_width region busBytes mask w) :
    legal_width region busBytes mask
        (choose_width WidthPolicy.minimal_ok region off busBytes mask) ∧
      choose_width WidthPolicy.minimal_ok region off busBytes mask ≤ w := by
  obtain ⟨hset, hge, hle, hmask⟩ := hw
  have hm : (w = 1 ∧ mask &&& 1 ≠ 0) ∨ (w = 2 ∧ mask &&& 2 ≠ 0) ∨
      (w = 4 ∧ mask &&& 4 ≠ 0) ∨ (w = 8 ∧ mask &&& 8 ≠ 0) := by
    rcases hset with rfl | rfl | rfl | rfl <;> simp_all [mask_for_bytes]
  have hcw : choose_width WidthPolicy.minimal_ok region off busBytes mask =
      min_width_ge mask region busBytes := rfl
  rw [hcw]
  unfold min_width_ge legal_width
  split_ifs with h1 h2 h3 h4
  · exact ⟨⟨Or.inl rfl, h1.1, h1.2.1, by
       simpa [mask_for_bytes] using h1.2.2⟩, by
     rcases hset with rfl | rfl | rfl | rfl <;> omega⟩
  · refine ⟨⟨Or.inr (Or.inl rfl), h2.1, h2.2.1, by
       simpa [mask_for_bytes] using h2.2.2⟩, ?_⟩
    rcases hm with ⟨rfl, hmk⟩ | ⟨rfl, _⟩ | ⟨rfl, _⟩ | ⟨rfl, _⟩
    · exact absurd ⟨hge, hle, hmk⟩ h1
    · omega
    · omega
    · omega
  · refine ⟨⟨Or.inr (Or.inr (Or.inl rfl)), h3.1, h3.2.1, by
       simpa [mask_for_bytes] using h3.2.2⟩, ?_⟩
    rcases hm with ⟨rfl, hmk⟩ | ⟨rfl, hmk⟩ | ⟨rfl, _⟩ | ⟨rfl, _⟩
    · exact absurd ⟨hge, hle, hmk⟩ h1
    · exact absurd ⟨hge, hle, hmk⟩ h2
    · omega
    · omega
  · refine ⟨⟨Or.inr (Or.inr (Or.inr rfl)), h4.1, h4.2.1, by
       simpa [mask_for_bytes] using h4.2.2⟩, ?_⟩
    rcases hm with ⟨rfl, hmk⟩ | ⟨rfl, hmk⟩ | ⟨rfl, hmk⟩ | ⟨rfl, _⟩
    · exact absurd ⟨hge, hle, hmk⟩ h1
    · exact absurd ⟨hge, hle, hmk⟩ h2
    · exact absurd ⟨hge, hle, hmk⟩ h3
    · omega
  · exfalso
    rcases hm with ⟨rfl, hmk⟩ | ⟨rfl, hmk⟩ | ⟨rfl, hmk⟩ | ⟨rfl, hmk⟩
    · exact h1 ⟨hge, hle, hmk⟩
    · exact h2 ⟨hge, hle, hmk⟩
    · exact h3 ⟨hge, hle, hmk⟩
    · exact h4 ⟨hge, hle, hmk⟩

/-- Witness for C4 (amended): with a 1-byte field, a 4-byte bus and the mask
enabling widths 2 and 4 only (mask 6), width 2 is legal; the theorem then
yields that the chosen width is legal and `≤ 2` (it is in fact 2). -/
theorem c4_minimal_ok_selects_min_witness :
    legal_width 1 4 6 2 ∧
      (legal_width 1 4 6 (choose_width WidthPolicy.minimal_ok 1 0 4 6) ∧
        choose_width WidthPolicy.minimal_ok 1 0 4 6 ≤ 2) :=
  ⟨⟨Or.inr (Or.inl rfl), by decide, by decide, by decide⟩,
    c4_minimal_ok_selects_min 1 0 4 6 2
      ⟨Or.inr (Or.inl rfl), by decide, by decide, by decide⟩⟩

/-! ## C9: a get performs no writes -/

/-- A plain (non-MMIO) memory transaction of the accessor engine. -/
inductive PEv
  | loadM (addr n : Nat)
  | storeM (addr n : Nat)
deriving DecidableEq, Repr

def pIsStore : PEv → Bool
  | .storeM _ _ => true
  | _ => false

/-- The memory transactions of `detail::get_impl` for a field of any kind at
absolute bit offset `bitOff`: a scalar Integer field does one pod load of
`bits/8` bytes (`load_pod_le`); a non-scalar Integer field loads the
`need_bytes` window at byte `bitOff/8` (`read_bits_le`); `bytes` and
`subpacket` fields return a `bytes_ref` / nested `view_base` built from
pointer arithmetic alone, and `pad` returns nothing — none of those three
touches memory. -/
def get_impl_ev (f : FieldDesc) (bitOff : Nat) : List PEv :=
  match f.kind with
  | .int_bits =>
    if is_scalar bitOff f.bits then [.loadM (bitOff / 8) (f.bits / 8)]
    else [.loadM (bitOff / 8) (needBytes bitOff f.bits)]
  | .bytes => []
  | .subpacket => []
  | .pad => []

/-- **C9** — A `get` never writes: for every field kind the plain accessor
engine's `get_impl` emits no store transaction, and for every Integer field
the MMIO `vget_impl` and policy-driven `xget_impl` traces contain no store
(so the underlying buffer / device memory is bit-identical before and after
every get). -/
theorem c9_get_is_read_only (f : FieldDesc) (g : IntFieldSpec) (typed : Bool)
    (cfg : XCfg) (bitOff bitOff2 bitOff3 busBytes : Nat) :
    (∀ e ∈ get_impl_ev f bitOff, pIsStore e = false) ∧
    (∀ e ∈ vget_impl_ev typed g bitOff2 busBytes, isStore e = false) ∧
    (∀ e ∈ xget_impl_ev typed cfg g bitOff3, isStore e = false) := by
  refine ⟨?_, ?_, ?_⟩
  · intro e he
    simp only [get_impl_ev] at he
    split at he
    · split at he <;>
        (simp only [List.mem_singleton] at he; subst he; rfl)
    · exact absurd he (List.not_mem_nil e)
    · exact absurd he (List.not_mem_nil e)
    · exact absurd he (List.not_mem_nil e)
  · unfold vget_impl_ev
    split_ifs with h1 h2
    · exact fun e he => (mmio_load_pod_ev_loadsOnly _ _ _ e he).2
    · exact fun e he => (byte_loads_loadsOnly _ _ e he).2
    · exact fun e he => (mmio_read_bits_le_ev_loadsOnly _ _ e he).2
  · unfold xget_impl_ev
    split_ifs with h1 h2 h3
    · exact fun e he => (mmio_load_pod_ev_loadsOnly _ _ _ e he).2
    · exact fun e he => (load_int_bytes_native_ev_loadsOnly _ _ _ _ e he).2
    · exact fun e he => (bus_load_ev_loadsOnly _ _ _ e he).2
    · exact fun e he => (mmio_read_bits_le_ev_loadsOnly _ _ e he).2

/-! ## C10: the `__uint128_t` path vs the two-`u64` fallback -/

theorem loadW_one (buf : Nat → Nat) (q : Nat) : loadW 1 buf q = buf q % 256 := by
  show fromBytesLE (readBytes 1 buf q) = buf q % 256
  simp only [readBytes, fromBytesLE]
  rw [Nat.mod_mod_of_dvd _ (dvd_refl 256)]
  omega

/-- `detail::read_bits_le<BitOffset, BitCount>` (portable fallback branch,
compiled when `__SIZEOF_INT128__` is absent): assemble the low
`min(need_bytes, 8)` window bytes into a `u64` `lo`, the ninth byte (when
the window has one) into `hi`, combine `(lo >> shift) | (hi << (64-shift))`
(just `lo` when the shift is zero) and mask with `mask64`. -/
def read_bits_le_fb (bitOff bits : Nat) (buf : Nat → Nat) : Nat :=
  (if bitOff % 8 = 0 then
    loadW (min (needBytes bitOff bits) 8) buf (bitOff / 8)
  else
    loadW (min (needBytes bitOff bits) 8) buf (bitOff / 8) / 2 ^ (bitOff % 8)
      ||| (if 8 < needBytes bitOff bits then buf (bitOff / 8 + 8) % 256 else 0)
            * 2 ^ (64 - bitOff % 8) % 2 ^ 64)
    &&& mask64 bits

/-- `detail::write_bits_le` (portable fallback branch): clear-and-insert in
`u64` arithmetic on `lo` (the low eight window bytes) with
`lo = (lo & ~(m << s)) | (value << s)`, and, when the window has a ninth
byte, on `hi` via the spill mask `m >> (64-s)` and spill value
`value >> (64-s)`; store back the low bytes, then (when present) the ninth
as `hi & 0xFF`. -/
def write_bits_le_fb (bitOff bits : Nat) (buf : Nat → Nat) (value : Nat) :
    Nat → Nat :=
  if 8 < needBytes bitOff bits then
    writeBytes
      (storeW 8 buf (bitOff / 8)
        (loadW 8 buf (bitOff / 8)
            &&& (2 ^ 64 - 1 - mask64 bits * 2 ^ (bitOff % 8) % 2 ^ 64)
          ||| (value &&& mask64 bits) * 2 ^ (bitOff % 8) % 2 ^ 64))
      (bitOff / 8 + 8)
      [(buf (bitOff / 8 + 8) % 256
          &&& (2 ^ 64 - 1 - mask64 bits / 2 ^ (64 - bitOff % 8))
        ||| (value &&& mask64 bits) / 2 ^ (64 - bitOff % 8)) % 256]
  else
    storeW (needBytes bitOff bits) buf (bitOff / 8)
      (loadW (needBytes bitOff bits) buf (bitOff / 8)
          &&& (2 ^ 64 - 1 - mask64 bits * 2 ^ (bitOff % 8) % 2 ^ 64)
        ||| (value &&& mask64 bits) * 2 ^ (bitOff % 8) % 2 ^ 64)

/-- A nine-byte store of `lo + 2^64 * hi` (with `lo < 2^64`) is the
eight-byte store of `lo` followed by the single-byte store of `hi & 0xFF`. -/
theorem storeW_nine (buf : Nat → Nat) (p lo hi i : Nat) (hlo : lo < 2 ^ 64) :
    storeW 9 buf p (lo + 2 ^ 64 * hi) i
      = writeBytes (storeW 8 buf p lo) (p + 8) [hi % 256] i := by
  by_cases hin : p ≤ i ∧ i < p + 9
  · by_cases h8 : i < p + 8
    · rw [storeW_inside hin.1 hin.2, writeBytes_outside (Or.inl h8),
        storeW_inside hin.1 h8]
      have hj : i - p < 8 := by omega
      have e1 : (2:Nat) ^ 64 = 2 ^ (8 * (i - p)) * 2 ^ (64 - 8 * (i - p)) := by
        rw [← pow_add]; congr 1; omega
      rw [show lo + 2 ^ 64 * hi
            = lo + 2 ^ (64 - 8 * (i - p)) * hi * 2 ^ (8 * (i - p)) by
          rw [e1]; ring,
        Nat.add_mul_div_right _ _ (show (0:Nat) < 2 ^ (8 * (i - p)) by positivity)]
      have e2 : (2:Nat) ^ (64 - 8 * (i - p)) = 2 ^ (56 - 8 * (i - p)) * 256 := by
        rw [show (256:Nat) = 2 ^ 8 by norm_num, ← pow_add]; congr 1; omega
      rw [show lo / 2 ^ (8 * (i - p)) + 2 ^ (64 - 8 * (i - p)) * hi
            = lo / 2 ^ (8 * (i - p)) + 2 ^ (56 - 8 * (i - p)) * hi * 256 by
          rw [e2]; ring,
        Nat.add_mul_mod_self_right]
    · have hieq : i = p + 8 := by omega
      subst hieq
      rw [storeW_inside hin.1 hin.2,
        writeBytes_inside (Nat.le_refl _)
          (by simp only [List.length_cons, List.length_nil]; omega),
        Nat.sub_self, show p + 8 - p = 8 by omega,
        show 8 * 8 = 64 by norm_num,
        show lo + 2 ^ 64 * hi = lo + hi * 2 ^ 64 by ring,
        Nat.add_mul_div_right _ _ (show (0:Nat) < 2 ^ 64 by positivity),
        Nat.div_eq_of_lt hlo, Nat.zero_add, List.getD_cons_zero,
        Nat.mod_mod_of_dvd _ (dvd_refl 256)]
  · have hout : i < p ∨ p + 9 ≤ i := by omega
    rw [storeW_outside hout,
      writeBytes_outside (by
        simp only [List.length_cons, List.length_nil]
        omega),
      storeW_outside (by omega)]

/-- Fallback read combine step: `(lo >> s) | ((hi << (64-s)) mod 2^64)`
equals the 128-bit `((lo + 2^64*hi) >> s) mod 2^64` for `1 ≤ s < 8`. -/
theorem fb_read_combine {s : Nat} (lo hi : Nat) (hs1 : 1 ≤ s) (hs : s < 8)
    (hlo : lo < 2 ^ 64) :
    lo / 2 ^ s ||| hi * 2 ^ (64 - s) % 2 ^ 64
      = (lo + 2 ^ 64 * hi) / 2 ^ s % 2 ^ 64 := by
  have hpos : (0:Nat) < 2 ^ s := by positivity
  have hdiv : lo / 2 ^ s < 2 ^ (64 - s) := by
    apply Nat.div_lt_of_lt_mul
    calc lo < 2 ^ 64 := hlo
      _ = 2 ^ s * 2 ^ (64 - s) := by rw [← pow_add]; congr 1; omega
  have e1 : lo + 2 ^ 64 * hi = lo + hi * 2 ^ (64 - s) * 2 ^ s := by
    rw [show (2:Nat) ^ 64 = 2 ^ (64 - s) * 2 ^ s by rw [← pow_add]; congr 1; omega]
    ring
  rw [e1, Nat.add_mul_div_right _ _ hpos]
  have e2 : hi * 2 ^ (64 - s) = hi % 2 ^ s * 2 ^ (64 - s) + hi / 2 ^ s * 2 ^ 64 := by
    conv_lhs => rw [← Nat.div_add_mod hi (2 ^ s)]
    rw [show (2:Nat) ^ 64 = 2 ^ s * 2 ^ (64 - s) by rw [← pow_add]; congr 1; omega]
    ring
  have hmm := mask_mul s (64 - s)
  rw [show 64 - s + s = 64 by omega] at hmm
  have hAC : (2:Nat) ^ s ≤ 2 ^ 64 := Nat.pow_le_pow_right (by norm_num) (by omega)
  have hbound : lo / 2 ^ s + hi % 2 ^ s * 2 ^ (64 - s) < 2 ^ 64 := by
    have hb1 : hi % 2 ^ s * 2 ^ (64 - s) ≤ (2 ^ s - 1) * 2 ^ (64 - s) :=
      Nat.mul_le_mul_right _ (by have := Nat.mod_lt hi hpos; omega)
    have hb1' : hi % 2 ^ s * 2 ^ (64 - s) ≤ 2 ^ 64 - 2 ^ (64 - s) := by
      rw [← hmm]; exact hb1
    have hb2 : (0:Nat) < 2 ^ (64 - s) := by positivity
    have hb3 : (2:Nat) ^ (64 - s) ≤ 2 ^ 64 :=
      Nat.pow_le_pow_right (by norm_num) (by omega)
    omega
  calc lo / 2 ^ s ||| hi * 2 ^ (64 - s) % 2 ^ 64
      = lo / 2 ^ s ||| hi % 2 ^ s * 2 ^ (64 - s) := by
        rw [mul_pow_mod _ (by omega : 64 - s ≤ 64), show 64 - (64 - s) = s by omega]
    _ = lo / 2 ^ s + hi % 2 ^ s * 2 ^ (64 - s) := by
        have h := lor_window (p := lo / 2 ^ s) (q := 0) (r := hi % 2 ^ s)
          (s := 64 - s) (e := 64) hdiv
          (by rw [show 64 - (64 - s) = s by omega]; exact Nat.mod_lt _ hpos)
          (by omega)
        simpa using h
    _ = (lo / 2 ^ s + hi * 2 ^ (64 - s)) % 2 ^ 64 := by
        rw [e2, ← Nat.add_assoc, Nat.add_mul_mod_self_right,
          Nat.mod_eq_of_lt hbound]

/-- Fallback `lo` update when the window fits in eight bytes
(`s + bits ≤ 64`): the `u64` clear-and-insert equals `clear_or`. -/
theorem fb_lo_eq_small {bits s v : Nat} (lo : Nat) (h1 : 1 ≤ bits)
    (hsb : s + bits ≤ 64) (hlo : lo < 2 ^ 64) (hv : v < 2 ^ bits) :
    lo &&& (2 ^ 64 - 1 - mask64 bits * 2 ^ s % 2 ^ 64) ||| v * 2 ^ s % 2 ^ 64
      = clear_or lo s bits v := by
  have h64 : bits ≤ 64 := by omega
  have hvlt : v * 2 ^ s < 2 ^ 64 := by
    calc v * 2 ^ s < 2 ^ bits * 2 ^ s :=
          mul_lt_mul_of_pos_right hv (by positivity)
      _ = 2 ^ (s + bits) := by rw [← pow_add]; congr 1; omega
      _ ≤ 2 ^ 64 := Nat.pow_le_pow_right (by norm_num) hsb
  have hlor := lor_window (p := lo % 2 ^ s) (q := lo / 2 ^ (s + bits)) (r := v)
    (s := s) (e := s + bits) (Nat.mod_lt _ (by positivity))
    (by rw [Nat.add_sub_cancel_left]; exact hv) (by omega)
  rw [mask64_eq h64, mask_mul_pow_mod (by omega : s ≤ 64),
    min_eq_left hsb, Nat.mod_eq_of_lt hvlt,
    and_not_window hlo (by omega : s ≤ s + bits) hsb, hlor]
  rfl

/-- Fallback `lo` update when the window needs a ninth byte
(`s + bits ≥ 65`): the shifted mask wraps in `u64`, so the clear keeps only
the low `s` bits and the insert is the low `64 - s` bits of the value. -/
theorem fb_lo_eq_big {bits s : Nat} (lo v : Nat) (h64 : bits ≤ 64) (hs : s < 8)
    (hsb : 65 ≤ s + bits) (hv : v < 2 ^ bits) :
    lo &&& (2 ^ 64 - 1 - mask64 bits * 2 ^ s % 2 ^ 64) ||| v * 2 ^ s % 2 ^ 64
      = lo % 2 ^ s + v % 2 ^ (64 - s) * 2 ^ s := by
  have hm : mask64 bits * 2 ^ s % 2 ^ 64 = 2 ^ 64 - 2 ^ s := by
    rw [mask64_eq h64, mask_mul_pow_mod (by omega : s ≤ 64),
      min_eq_right (by omega : 64 ≤ s + bits)]
  have hsle : (2:Nat) ^ s ≤ 2 ^ 64 := Nat.pow_le_pow_right (by norm_num) (by omega)
  have hc : 2 ^ 64 - 1 - (2 ^ 64 - 2 ^ s) = 2 ^ s - 1 := by omega
  have h := lor_window (p := lo % 2 ^ s) (q := 0) (r := v % 2 ^ (64 - s))
    (s := s) (e := 64) (Nat.mod_lt _ (by positivity))
    (Nat.mod_lt _ (by positivity)) (by omega)
  rw [hm, hc, and_two_pow_sub_one, mul_pow_mod _ (by omega : s ≤ 64)]
  simpa using h

/-- Fallback `hi` update (ninth window byte): clearing the spill mask
`m >> (64-s)` and inserting the spill value `v >> (64-s)` is a `clear_or`
of the top `s + bits - 64` field bits. -/
theorem fb_hi_eq {bits s : Nat} (hi v : Nat) (hhi : hi < 256) (h64 : bits ≤ 64)
    (hs : s < 8) (hsb : 65 ≤ s + bits) (hv : v < 2 ^ bits) :
    hi &&& (2 ^ 64 - 1 - mask64 bits / 2 ^ (64 - s)) ||| v / 2 ^ (64 - s)
      = v / 2 ^ (64 - s) + hi / 2 ^ (s + bits - 64) * 2 ^ (s + bits - 64) := by
  have hhi64 : hi < 2 ^ 64 := lt_of_lt_of_le hhi (by norm_num)
  have hd : mask64 bits / 2 ^ (64 - s) = 2 ^ (s + bits - 64) - 2 ^ 0 := by
    rw [mask64_eq h64, two_pow_sub_one_div (by omega : 64 - s ≤ bits),
      show bits - (64 - s) = s + bits - 64 by omega, pow_zero]
  have hvd : v / 2 ^ (64 - s) < 2 ^ (s + bits - 64) := by
    apply Nat.div_lt_of_lt_mul
    calc v < 2 ^ bits := hv
      _ = 2 ^ (64 - s) * 2 ^ (s + bits - 64) := by
        rw [← pow_add]; congr 1; omega
  rw [hd, and_not_window hhi64 (Nat.zero_le _) (by omega : s + bits - 64 ≤ 64)]
  simp only [pow_zero, Nat.mod_one, Nat.zero_add]
  have h := lor_window (p := 0) (q := hi / 2 ^ (s + bits - 64))
    (r := v / 2 ^ (64 - s)) (s := 0) (e := s + bits - 64)
    (by norm_num) (by simpa using hvd) (Nat.zero_le _)
  simpa using h

/-- Splitting the 128-bit clear-and-insert of a nine-byte window into the
fallback's `lo`/`hi` pair. -/
theorem clear_or_nine {bits s lo hi v : Nat} (h64 : bits ≤ 64) (hs : s < 8)
    (hsb : 65 ≤ s + bits) (hv : v < 2 ^ bits) (hlo : lo < 2 ^ 64) :
    clear_or (lo + 2 ^ 64 * hi) s bits v
      = lo % 2 ^ s + v % 2 ^ (64 - s) * 2 ^ s
        + 2 ^ 64 * (v / 2 ^ (64 - s)
            + hi / 2 ^ (s + bits - 64) * 2 ^ (s + bits - 64)) := by
  have c1 : (lo + 2 ^ 64 * hi) % 2 ^ s = lo % 2 ^ s := by
    rw [show lo + 2 ^ 64 * hi = lo + 2 ^ (64 - s) * hi * 2 ^ s by
      rw [show (2:Nat) ^ 64 = 2 ^ (64 - s) * 2 ^ s by rw [← pow_add]; congr 1; omega]
      ring]
    exact Nat.add_mul_mod_self_right _ _ _
  have c2 : (lo + 2 ^ 64 * hi) / 2 ^ (s + bits) = hi / 2 ^ (s + bits - 64) := by
    rw [show (2:Nat) ^ (s + bits) = 2 ^ 64 * 2 ^ (s + bits - 64) by
        rw [← pow_add]; congr 1; omega,
      ← Nat.div_div_eq_div_mul,
      show lo + 2 ^ 64 * hi = lo + hi * 2 ^ 64 by ring,
      Nat.add_mul_div_right _ _ (show (0:Nat) < 2 ^ 64 by positivity),
      Nat.div_eq_of_lt hlo, Nat.zero_add]
  have c3 : v * 2 ^ s = v % 2 ^ (64 - s) * 2 ^ s + v / 2 ^ (64 - s) * 2 ^ 64 := by
    conv_lhs => rw [← Nat.div_add_mod v (2 ^ (64 - s))]
    rw [show (2:Nat) ^ 64 = 2 ^ (64 - s) * 2 ^ s by rw [← pow_add]; congr 1; omega]
    ring
  have c4 : (2:Nat) ^ (s + bits) = 2 ^ (s + bits - 64) * 2 ^ 64 := by
    rw [← pow_add]; congr 1; omega
  simp only [clear_or]
  rw [c1, c2, c3, c4]
  ring

/-- The fallback read agrees with the `__uint128_t` read on every window. -/
theorem read_bits_le_fb_eq (bitOff bits : Nat) (buf : Nat → Nat)
    (h1 : 1 ≤ bits) (h64 : bits ≤ 64) :
    read_bits_le_fb bitOff bits buf = read_bits_le bitOff bits buf := by
  have hs8 : bitOff % 8 < 8 := Nat.mod_lt _ (by norm_num)
  have h9 := @needBytes_le_9 bitOff bits h64
  have hge := needBytes_ge bitOff bits
  by_cases h8 : 8 < needBytes bitOff bits
  · have h9e : needBytes bitOff bits = 9 := by omega
    have hsb : 65 ≤ bitOff % 8 + bits := by
      have h := h9e; simp only [needBytes] at h; omega
    have hs1 : 1 ≤ bitOff % 8 := by omega
    have hlo8 : loadW 8 buf (bitOff / 8) < 2 ^ 64 := by
      have h := loadW_lt 8 buf (bitOff / 8)
      rw [show 8 * 8 = 64 by norm_num] at h
      exact h
    have hsplit : loadW 9 buf (bitOff / 8)
        = loadW 8 buf (bitOff / 8) + 2 ^ 64 * (buf (bitOff / 8 + 8) % 256) := by
      have h := loadW_split 8 1 buf (bitOff / 8)
      rw [show 8 + 1 = 9 by norm_num, show 8 * 8 = 64 by norm_num, loadW_one] at h
      exact h
    rw [read_bits_le_fb, read_bits_le, if_neg (by omega : ¬ bitOff % 8 = 0),
      if_pos h8, h9e, show min 9 8 = 8 by norm_num, hsplit]
    congr 1
    exact fb_read_combine (loadW 8 buf (bitOff / 8)) (buf (bitOff / 8 + 8) % 256)
      hs1 hs8 hlo8
  · have hsb : bitOff % 8 + bits ≤ 64 := by
      simp only [needBytes] at h8; omega
    have hmin : min (needBytes bitOff bits) 8 = needBytes bitOff bits :=
      min_eq_left (by omega)
    have hlt : loadW (needBytes bitOff bits) buf (bitOff / 8) / 2 ^ (bitOff % 8)
        < 2 ^ 64 :=
      lt_of_le_of_lt (Nat.div_le_self _ _)
        (lt_of_lt_of_le (loadW_lt _ _ _)
          (Nat.pow_le_pow_right (by norm_num) (by omega)))
    rw [read_bits_le_fb, read_bits_le, hmin, Nat.mod_eq_of_lt hlt]
    by_cases hz : bitOff % 8 = 0
    · rw [if_pos hz, hz, pow_zero, Nat.div_one]
    · rw [if_neg hz, if_neg (by omega : ¬ 8 < needBytes bitOff bits)]
      simp

/-- The fallback write agrees with the `__uint128_t` write byte for byte. -/
theorem write_bits_le_fb_eq (bitOff bits value : Nat) (buf : Nat → Nat)
    (h1 : 1 ≤ bits) (h64 : bits ≤ 64) (i : Nat) :
    write_bits_le_fb bitOff bits buf value i
      = write_bits_le bitOff bits buf value i := by
  have hs8 : bitOff % 8 < 8 := Nat.mod_lt _ (by norm_num)
  have h9 := @needBytes_le_9 bitOff bits h64
  have hge := needBytes_ge bitOff bits
  have hv : value % 2 ^ bits < 2 ^ bits := Nat.mod_lt _ (by positivity)
  rw [write_bits_le_eq buf value h1 h64]
  by_cases h8 : 8 < needBytes bitOff bits
  · have h9e : needBytes bitOff bits = 9 := by omega
    have hsb : 65 ≤ bitOff % 8 + bits := by
      have h := h9e; simp only [needBytes] at h; omega
    have hlo8 : loadW 8 buf (bitOff / 8) < 2 ^ 64 := by
      have h := loadW_lt 8 buf (bitOff / 8)
      rw [show 8 * 8 = 64 by norm_num] at h
      exact h
    have hsplit : loadW 9 buf (bitOff / 8)
        = loadW 8 buf (bitOff / 8) + 2 ^ 64 * (buf (bitOff / 8 + 8) % 256) := by
      have h := loadW_split 8 1 buf (bitOff / 8)
      rw [show 8 + 1 = 9 by norm_num, show 8 * 8 = 64 by norm_num, loadW_one] at h
      exact h
    have hloEq := fb_lo_eq_big (loadW 8 buf (bitOff / 8)) (value % 2 ^ bits)
      h64 hs8 hsb hv
    have hhiEq := fb_hi_eq (buf (bitOff / 8 + 8) % 256) (value % 2 ^ bits)
      (Nat.mod_lt _ (by norm_num)) h64 hs8 hsb hv
    have hmm := mask_mul (64 - bitOff % 8) (bitOff % 8)
    rw [show bitOff % 8 + (64 - bitOff % 8) = 64 by omega] at hmm
    have hLo : loadW 8 buf (bitOff / 8) % 2 ^ (bitOff % 8)
        + value % 2 ^ bits % 2 ^ (64 - bitOff % 8) * 2 ^ (bitOff % 8) < 2 ^ 64 := by
      have hb1 : value % 2 ^ bits % 2 ^ (64 - bitOff % 8) * 2 ^ (bitOff % 8)
          ≤ (2 ^ (64 - bitOff % 8) - 1) * 2 ^ (bitOff % 8) :=
        Nat.mul_le_mul_right _ (by
          have := Nat.mod_lt (value % 2 ^ bits)
            (show (0:Nat) < 2 ^ (64 - bitOff % 8) by positivity)
          omega)
      have hb1' : value % 2 ^ bits % 2 ^ (64 - bitOff % 8) * 2 ^ (bitOff % 8)
          ≤ 2 ^ 64 - 2 ^ (bitOff % 8) := by
        rw [← hmm]; exact hb1
      have hb2 : loadW 8 buf (bitOff / 8) % 2 ^ (bitOff % 8) < 2 ^ (bitOff % 8) :=
        Nat.mod_lt _ (by positivity)
      have hb3 : (2:Nat) ^ (bitOff % 8) ≤ 2 ^ 64 :=
        Nat.pow_le_pow_right (by norm_num) (by omega)
      omega
    rw [write_bits_le_fb, if_pos h8, and_mask64 value h64, hloEq, hhiEq,
      h9e, hsplit, clear_or_nine h64 hs8 hsb hv hlo8]
    exact (storeW_nine buf (bitOff / 8) _ _ i hLo).symm
  · have hsb : bitOff % 8 + bits ≤ 64 := by
      simp only [needBytes] at h8; omega
    have hlo : loadW (needBytes bitOff bits) buf (bitOff / 8) < 2 ^ 64 :=
      lt_of_lt_of_le (loadW_lt _ _ _)
        (Nat.pow_le_pow_right (by norm_num) (by omega))
    have hsmall := fb_lo_eq_small
      (loadW (needBytes bitOff bits) buf (bitOff / 8)) h1 hsb hlo hv
    rw [write_bits_le_fb, if_neg h8, and_mask64 value h64, hsmall]

/-- **C10** — The two conditionally-compiled bit-window engines are
equivalent: for every bit offset, every width `1..64`, every input value
and every buffer state, the portable two-`u64` fallback `read_bits_le`
returns the same value as the `__uint128_t` path, and the fallback
`write_bits_le` produces the same final buffer byte at every address. -/
theorem c10_u128_fallback_equiv (bitOff bits value : Nat) (buf : Nat → Nat)
    (h1 : 1 ≤ bits) (h64 : bits ≤ 64) :
    read_bits_le_fb bitOff bits buf = read_bits_le bitOff bits buf ∧
    ∀ i, write_bits_le_fb bitOff bits buf value i
        = write_bits_le bitOff bits buf value i :=
  ⟨read_bits_le_fb_eq bitOff bits buf h1 h64,
    fun i => write_bits_le_fb_eq bitOff bits value buf h1 h64 i⟩

/-- Witness for C10 at a nine-byte window: a 60-bit field at bit offset 13
(shift 5, `need_bytes = 9`). -/
theorem c10_u128_fallback_equiv_witness :
    1 ≤ 60 ∧ 60 ≤ 64 ∧
    (read_bits_le_fb 13 60 (fun j => j % 256)
        = read_bits_le 13 60 (fun j => j % 256) ∧
      ∀ i, write_bits_le_fb 13 60 (fun j => j % 256) 987654321 i
          = write_bits_le 13 60 (fun j => j % 256) 987654321 i) :=
  ⟨by decide, by decide,
    c10_u128_fallback_equiv 13 60 987654321 (fun j => j % 256)
      (by decide) (by decide)⟩
